import Mathlib

/-!
Verification of the forward-error-correction core of the HackRF_Scripts
repository: GF(2) polynomial arithmetic and BCH repair (bch.py), the two
Reed-Solomon codecs (reedsolo.py, reedsolo6.py) and their fixed-frame
wrappers (rs.py, rs6.py), and the burst parser helpers (bitsparser.py).
All machine integers are modelled as Nat; Python bit strings are List Bool;
Python byte sequences are List Nat with elements below 256.
-/

set_option maxRecDepth 10000

namespace HackRF

/-! ### Preliminaries: bit length and xor facts

Python integers expose bit_length(); we model it with a fuel-based
recursion (fuel n is always enough since the recursion halves n). -/

def bitLenAux : Nat → Nat → Nat
  | 0, _ => 0
  | fuel+1, n => if n = 0 then 0 else bitLenAux fuel (n / 2) + 1

/-- Model of Python int.bit_length(): number of binary digits, 0 for 0. -/
def bitLen (n : Nat) : Nat := bitLenAux n n

theorem bitLenAux_irrel : ∀ f1 f2 n : Nat, n ≤ f1 → n ≤ f2 →
    bitLenAux f1 n = bitLenAux f2 n := by
  intro f1
  induction f1 with
  | zero =>
    intro f2 n h1 _
    interval_cases n
    cases f2 <;> simp [bitLenAux]
  | succ f ih =>
    intro f2 n h1 h2
    cases f2 with
    | zero =>
      interval_cases n
      simp [bitLenAux]
    | succ f' =>
      simp only [bitLenAux]
      by_cases hn : n = 0
      · simp [hn]
      · simp only [hn, if_false]
        have hd : n / 2 < n := Nat.div_lt_self (Nat.pos_of_ne_zero hn) (by omega)
        rw [ih f' (n / 2) (by omega) (by omega)]

theorem bitLen_zero : bitLen 0 = 0 := rfl

theorem bitLen_rec (n : Nat) (h : n ≠ 0) : bitLen n = bitLen (n / 2) + 1 := by
  have hpos : 0 < n := Nat.pos_of_ne_zero h
  unfold bitLen
  cases hn : n with
  | zero => omega
  | succ m =>
    simp only [bitLenAux, Nat.succ_ne_zero, if_false]
    have hd : n / 2 ≤ m := by omega
    rw [← hn]
    have := bitLenAux_irrel m (n / 2) (n / 2) (by omega) (le_refl _)
    rw [hn] at this ⊢
    rw [this]

theorem bitLen_le_iff (n k : Nat) : bitLen n ≤ k ↔ n < 2 ^ k := by
  induction n using Nat.strong_induction_on generalizing k with
  | _ n ih =>
    by_cases hn : n = 0
    · subst hn
      simp only [bitLen_zero, Nat.zero_le, true_iff]
      exact Nat.pos_pow_of_pos k (by omega)
    · rw [bitLen_rec n hn]
      cases k with
      | zero =>
        simp only [Nat.pow_zero]
        omega
      | succ k' =>
        have hd : n / 2 < n := Nat.div_lt_self (Nat.pos_of_ne_zero hn) (by omega)
        rw [Nat.succ_le_succ_iff, ih (n / 2) hd k']
        rw [Nat.pow_succ]
        omega

theorem lt_two_pow_bitLen (n : Nat) : n < 2 ^ bitLen n :=
  (bitLen_le_iff n (bitLen n)).mp (le_refl _)

theorem bitLen_pos (n : Nat) (h : n ≠ 0) : 1 ≤ bitLen n := by
  by_contra hc
  have h0 : bitLen n ≤ 0 := by omega
  have := (bitLen_le_iff n 0).mp h0
  simp at this
  omega

theorem two_pow_le_of_bitLen (n : Nat) (h : n ≠ 0) : 2 ^ (bitLen n - 1) ≤ n := by
  by_contra hc
  have hlt : n < 2 ^ (bitLen n - 1) := by omega
  have := (bitLen_le_iff n (bitLen n - 1)).mpr hlt
  have h1 := bitLen_pos n h
  omega

theorem div_pow_eq_one (n s : Nat) (h1 : 2 ^ s ≤ n) (h2 : n < 2 ^ (s+1)) :
    n / 2 ^ s = 1 := by
  apply Nat.div_eq_of_lt_le
  · omega
  · have e : 2 ^ s * 2 = 2 ^ (s+1) := by rw [Nat.pow_succ]
    omega

theorem testBit_top (n : Nat) (h : n ≠ 0) : n.testBit (bitLen n - 1) = true := by
  have h1 : 2 ^ (bitLen n - 1) ≤ n := two_pow_le_of_bitLen n h
  have h2 : n < 2 ^ bitLen n := lt_two_pow_bitLen n
  have h3 : 1 ≤ bitLen n := bitLen_pos n h
  rw [Nat.testBit_to_div_mod]
  have h2' : n < 2 ^ (bitLen n - 1 + 1) := by
    rw [show bitLen n - 1 + 1 = bitLen n from by omega]
    exact h2
  have hq := div_pow_eq_one n (bitLen n - 1) h1 h2'
  simp [hq]

theorem lt_two_pow_of_testBit_false (n k : Nat)
    (h : ∀ i, k ≤ i → n.testBit i = false) : n < 2 ^ k := by
  by_contra hc
  have hge : 2 ^ k ≤ n := by omega
  have hn : n ≠ 0 := by
    have := Nat.pos_pow_of_pos k (show 0 < 2 by omega)
    omega
  have htop := testBit_top n hn
  have hbl : k + 1 ≤ bitLen n := by
    by_contra hb
    have : bitLen n ≤ k := by omega
    have := (bitLen_le_iff n k).mp this
    omega
  have := h (bitLen n - 1) (by omega)
  rw [this] at htop
  exact Bool.false_ne_true htop

theorem testBit_false_of_lt_two_pow (n k i : Nat) (h : n < 2 ^ k) (hi : k ≤ i) :
    n.testBit i = false := by
  apply Nat.testBit_eq_false_of_lt
  calc n < 2 ^ k := h
    _ ≤ 2 ^ i := Nat.pow_le_pow_right (by omega) hi

/-- Xor of two numbers in the same binade [2^s, 2^(s+1)) clears the top bit. -/
theorem xor_lt_of_same_binade (x y s : Nat)
    (hx1 : 2 ^ s ≤ x) (hx2 : x < 2 ^ (s+1)) (hy1 : 2 ^ s ≤ y) (hy2 : y < 2 ^ (s+1)) :
    x ^^^ y < 2 ^ s := by
  apply lt_two_pow_of_testBit_false
  intro i hi
  rw [Nat.testBit_xor]
  rcases Nat.eq_or_lt_of_le hi with heq | hlt
  · have hxt : x.testBit s = true := by
      rw [Nat.testBit_to_div_mod]
      simp [div_pow_eq_one x s hx1 hx2]
    have hyt : y.testBit s = true := by
      rw [Nat.testBit_to_div_mod]
      simp [div_pow_eq_one y s hy1 hy2]
    rw [← heq, hxt, hyt]
    rfl
  · rw [testBit_false_of_lt_two_pow x (s+1) i hx2 hlt,
        testBit_false_of_lt_two_pow y (s+1) i hy2 hlt]
    rfl

theorem bitLen_eq_of_xor_lt (x y : Nat) (h : bitLen x < bitLen y) :
    bitLen (x ^^^ y) = bitLen y := by
  have hy0 : y ≠ 0 := by
    intro hy
    subst hy
    simp [bitLen_zero] at h
  have hup : x ^^^ y < 2 ^ bitLen y :=
    Nat.xor_lt_two_pow
      (lt_of_lt_of_le (lt_two_pow_bitLen x) (Nat.pow_le_pow_right (by omega) (by omega)))
      (lt_two_pow_bitLen y)
  have hlow : 2 ^ (bitLen y - 1) ≤ x ^^^ y := by
    apply Nat.testBit_implies_ge
    rw [Nat.testBit_xor]
    have hxf : x.testBit (bitLen y - 1) = false := by
      apply testBit_false_of_lt_two_pow x (bitLen x)
      · exact lt_two_pow_bitLen x
      · omega
    rw [hxf, testBit_top y hy0]
    rfl
  have h1 : bitLen (x ^^^ y) ≤ bitLen y := (bitLen_le_iff _ _).mpr hup
  have h2 : ¬ bitLen (x ^^^ y) ≤ bitLen y - 1 := by
    intro hc
    have := (bitLen_le_iff (x ^^^ y) (bitLen y - 1)).mp hc
    omega
  have := bitLen_pos y hy0
  omega

theorem two_mul_xor (x y : Nat) : (2*x) ^^^ (2*y) = 2*(x ^^^ y) := by
  have h : ∀ m n : Nat, (m ^^^ n) <<< 1 = (m <<< 1) ^^^ (n <<< 1) := by
    intro m n
    apply Nat.eq_of_testBit_eq
    intro i
    simp only [Nat.testBit_shiftLeft, Nat.testBit_xor]
    cases Nat.decLe 1 i with
    | isTrue h => simp [h]
    | isFalse h => simp [h]
  have e1 : 2*x = x <<< 1 := by omega
  have e2 : 2*y = y <<< 1 := by omega
  have e3 : 2*(x ^^^ y) = (x ^^^ y) <<< 1 := by omega
  rw [e1, e2, e3, h]

theorem two_mul_xor_one (x : Nat) : (2*x) ^^^ 1 = 2*x + 1 := by
  apply Nat.eq_of_testBit_eq
  intro i
  rw [Nat.testBit_xor]
  cases i with
  | zero =>
    have h1 : (2*x).testBit 0 = false := by
      rw [Nat.testBit_zero]
      simp only [decide_eq_false_iff_not]
      omega
    have h2 : (2*x+1).testBit 0 = true := by
      rw [Nat.testBit_zero]
      simp only [decide_eq_true_eq]
      omega
    rw [h1, h2]
    rfl
  | succ j =>
    rw [Nat.testBit_succ, Nat.testBit_succ, Nat.testBit_succ]
    rw [show (2*x)/2 = x from by omega, show (2*x+1)/2 = x from by omega,
        show (1:Nat)/2 = 0 from by omega]
    simp

theorem odd_xor_even (x y : Nat) : (2*x+1) ^^^ (2*y) = 2*(x ^^^ y) + 1 := by
  rw [← two_mul_xor_one x, Nat.xor_assoc, Nat.xor_comm 1 (2*y), ← Nat.xor_assoc,
      two_mul_xor, two_mul_xor_one]

theorem odd_xor_odd (x y : Nat) : (2*x+1) ^^^ (2*y+1) = 2*(x ^^^ y) := by
  rw [← two_mul_xor_one x, ← two_mul_xor_one y]
  have : 2*x ^^^ 1 ^^^ (2*y ^^^ 1) = (2*x) ^^^ (2*y) := by
    rw [Nat.xor_assoc, Nat.xor_comm 1 (2*y ^^^ 1), Nat.xor_assoc, Nat.xor_self,
        Nat.xor_zero]
  rw [this, two_mul_xor]

theorem bitLen_two_mul (x : Nat) (h : x ≠ 0) : bitLen (2*x) = bitLen x + 1 := by
  have h2 : 2*x ≠ 0 := by omega
  rw [bitLen_rec (2*x) h2]
  have : 2*x/2 = x := by omega
  rw [this]

theorem bitLen_odd (x : Nat) : bitLen (2*x+1) = bitLen x + 1 := by
  have h2 : 2*x+1 ≠ 0 := by omega
  rw [bitLen_rec (2*x+1) h2]
  have : (2*x+1)/2 = x := by omega
  rw [this]

/-! ### bch.py: multiply (GF(2) carry-less multiplication)

Source (bch.py, lines 33-42): result = 0; idx = 0; while b > 0: if b % 2:
result ^= (a << idx); b >>= 1; idx += 1; return result.  Shifting a by the
growing idx is the same as doubling the running a, which gives a structural
recursion (fuel b is enough since b halves every step). -/

def multiplyAux : Nat → Nat → Nat → Nat
  | 0, _, _ => 0
  | fuel+1, a, b => if b = 0 then 0 else (if b % 2 = 1 then a else 0) ^^^ multiplyAux fuel (2*a) (b / 2)

/-- Model of bch.py multiply: polynomial multiplication over GF(2) on bitmasks. -/
def multiply (a b : Nat) : Nat := multiplyAux b a b

theorem multiplyAux_irrel : ∀ f1 f2 a b : Nat, b ≤ f1 → b ≤ f2 →
    multiplyAux f1 a b = multiplyAux f2 a b := by
  intro f1
  induction f1 with
  | zero =>
    intro f2 a b h1 _
    interval_cases b
    cases f2 <;> simp [multiplyAux]
  | succ f ih =>
    intro f2 a b h1 h2
    cases f2 with
    | zero =>
      interval_cases b
      simp [multiplyAux]
    | succ f' =>
      simp only [multiplyAux]
      by_cases hb : b = 0
      · simp [hb]
      · simp only [hb, if_false]
        rw [ih f' (2*a) (b / 2) (by omega) (by omega)]

theorem multiply_zero_right (a : Nat) : multiply a 0 = 0 := rfl

theorem multiply_rec (a b : Nat) (h : b ≠ 0) :
    multiply a b = (if b % 2 = 1 then a else 0) ^^^ multiply (2*a) (b / 2) := by
  unfold multiply
  cases hb : b with
  | zero => omega
  | succ m =>
    simp only [multiplyAux, Nat.succ_ne_zero, if_false]
    rw [← hb]
    congr 1
    exact multiplyAux_irrel m (b/2) (2*a) (b/2) (by omega) (le_refl _)

theorem multiply_one_right (a : Nat) : multiply a 1 = a := by
  rw [multiply_rec a 1 (by omega)]
  norm_num
  rw [multiply_zero_right, Nat.xor_zero]

theorem multiply_even (a b : Nat) : multiply a (2*b) = multiply (2*a) b := by
  by_cases hb : b = 0
  · subst hb
    rfl
  · rw [multiply_rec a (2*b) (by omega)]
    rw [show (2*b) % 2 = 0 from by omega]
    rw [show (2*b) / 2 = b from by omega]
    simp

theorem multiply_odd (a b : Nat) : multiply a (2*b+1) = a ^^^ multiply (2*a) b := by
  rw [multiply_rec a (2*b+1) (by omega)]
  rw [show (2*b+1) % 2 = 1 from by omega]
  rw [show (2*b+1) / 2 = b from by omega]
  simp

theorem multiply_zero_left (b : Nat) : multiply 0 b = 0 := by
  induction b using Nat.strong_induction_on with
  | _ b ih =>
    by_cases hb : b = 0
    · subst hb
      rfl
    · rw [multiply_rec 0 b hb]
      rw [show 2*0 = 0 from by omega]
      rw [ih (b/2) (Nat.div_lt_self (Nat.pos_of_ne_zero hb) (by omega))]
      simp

theorem multiply_two_mul_left (a b : Nat) : multiply (2*a) b = 2 * multiply a b := by
  induction b using Nat.strong_induction_on generalizing a with
  | _ b ih =>
    by_cases hb : b = 0
    · subst hb
      rfl
    · have hd : b / 2 < b := Nat.div_lt_self (Nat.pos_of_ne_zero hb) (by omega)
      have e1 : (if b % 2 = 1 then 2*a else 0) = 2 * (if b % 2 = 1 then a else 0) := by
        by_cases h : b % 2 = 1 <;> simp [h]
      rw [multiply_rec (2*a) b hb, multiply_rec a b hb, ih (b/2) hd (2*a),
          ← two_mul_xor, e1]

theorem multiply_two_mul_right (a b : Nat) : multiply a (2*b) = 2 * multiply a b := by
  rw [multiply_even, multiply_two_mul_left]

theorem multiply_odd_left (a b : Nat) : multiply (2*a+1) b = b ^^^ 2 * multiply a b := by
  induction b using Nat.strong_induction_on generalizing a with
  | _ b ih =>
    by_cases hb : b = 0
    · subst hb
      simp [multiply_zero_right]
    · by_cases hpar : b % 2 = 0
      · obtain ⟨c, hc⟩ : ∃ c, b = 2*c := ⟨b/2, by omega⟩
        rw [hc]
        rw [multiply_even, multiply_two_mul_left (2*a+1) c, ih c (by omega) a,
            multiply_two_mul_right a c, ← two_mul_xor]
      · obtain ⟨c, hc⟩ : ∃ c, b = 2*c+1 := ⟨b/2, by omega⟩
        rw [hc]
        rw [multiply_odd, multiply_two_mul_left (2*a+1) c, ih c (by omega) a,
            multiply_odd a c, multiply_two_mul_left a c,
            ← two_mul_xor, ← two_mul_xor, ← Nat.xor_assoc, ← Nat.xor_assoc]
        congr 1
        rw [odd_xor_even a c, odd_xor_even c a, Nat.xor_comm a c]

theorem multiply_comm (a b : Nat) : multiply a b = multiply b a := by
  induction b using Nat.strong_induction_on generalizing a with
  | _ b ih =>
    by_cases hb : b = 0
    · subst hb
      rw [multiply_zero_right, multiply_zero_left]
    · by_cases hpar : b % 2 = 0
      · obtain ⟨c, hc⟩ : ∃ c, b = 2*c := ⟨b/2, by omega⟩
        rw [hc]
        rw [multiply_even, multiply_two_mul_left, multiply_two_mul_left,
            ih c (by omega) a]
      · obtain ⟨c, hc⟩ : ∃ c, b = 2*c+1 := ⟨b/2, by omega⟩
        rw [hc]
        rw [multiply_odd, multiply_two_mul_left, ih c (by omega) a,
            multiply_odd_left c a, Nat.xor_comm a (2 * multiply c a)]

theorem multiply_one_left (b : Nat) : multiply 1 b = b := by
  rw [multiply_comm, multiply_one_right]

theorem multiply_distrib_right (a b c : Nat) :
    multiply a (b ^^^ c) = multiply a b ^^^ multiply a c := by
  induction b using Nat.strong_induction_on generalizing c with
  | _ b ih =>
    by_cases hb : b = 0
    · subst hb
      rw [Nat.zero_xor, multiply_zero_right, Nat.zero_xor]
    · by_cases hc : c = 0
      · subst hc
        rw [Nat.xor_zero, multiply_zero_right, Nat.xor_zero]
      · by_cases hbp : b % 2 = 0
        · obtain ⟨x, hx⟩ : ∃ x, b = 2*x := ⟨b/2, by omega⟩
          by_cases hcp : c % 2 = 0
          · obtain ⟨y, hy⟩ : ∃ y, c = 2*y := ⟨c/2, by omega⟩
            rw [hx, hy, two_mul_xor, multiply_two_mul_right, multiply_two_mul_right,
                multiply_two_mul_right, two_mul_xor, ih x (by omega) y]
          · obtain ⟨y, hy⟩ : ∃ y, c = 2*y+1 := ⟨c/2, by omega⟩
            rw [hx, hy]
            rw [Nat.xor_comm (2*x) (2*y+1), odd_xor_even y x]
            rw [show 2*(y ^^^ x) + 1 = 2*(x ^^^ y) + 1 from by rw [Nat.xor_comm x y]]
            rw [multiply_odd, multiply_two_mul_left, ih x (by omega) y,
                multiply_two_mul_right, multiply_odd, multiply_two_mul_left]
            rw [← two_mul_xor, Nat.xor_comm (2 * multiply a x) (a ^^^ 2 * multiply a y),
                Nat.xor_assoc, Nat.xor_comm (2 * multiply a x) (2 * multiply a y)]
        · obtain ⟨x, hx⟩ : ∃ x, b = 2*x+1 := ⟨b/2, by omega⟩
          by_cases hcp : c % 2 = 0
          · obtain ⟨y, hy⟩ : ∃ y, c = 2*y := ⟨c/2, by omega⟩
            rw [hx, hy, odd_xor_even x y]
            rw [multiply_odd, multiply_two_mul_left, ih x (by omega) y,
                multiply_two_mul_right, multiply_odd, multiply_two_mul_left]
            rw [← two_mul_xor, Nat.xor_assoc]
          · obtain ⟨y, hy⟩ : ∃ y, c = 2*y+1 := ⟨c/2, by omega⟩
            rw [hx, hy, odd_xor_odd x y]
            rw [multiply_two_mul_right, ih x (by omega) y,
                multiply_odd, multiply_two_mul_left, multiply_odd, multiply_two_mul_left]
            rw [← two_mul_xor]
            rw [Nat.xor_assoc a (2 * multiply a x) (a ^^^ 2 * multiply a y),
                Nat.xor_comm (2 * multiply a x) (a ^^^ 2 * multiply a y),
                ← Nat.xor_assoc a (a ^^^ 2 * multiply a y) (2 * multiply a x),
                ← Nat.xor_assoc a a (2 * multiply a y),
                Nat.xor_self, Nat.zero_xor,
                Nat.xor_comm (2 * multiply a y) (2 * multiply a x)]

theorem multiply_distrib_left (a b c : Nat) :
    multiply (a ^^^ b) c = multiply a c ^^^ multiply b c := by
  rw [multiply_comm, multiply_distrib_right, multiply_comm c a, multiply_comm c b]

theorem multiply_assoc (a b c : Nat) :
    multiply (multiply a b) c = multiply a (multiply b c) := by
  induction c using Nat.strong_induction_on with
  | _ c ih =>
    by_cases hc : c = 0
    · subst hc
      rw [multiply_zero_right, multiply_zero_right, multiply_zero_right]
    · by_cases hcp : c % 2 = 0
      · obtain ⟨y, hy⟩ : ∃ y, c = 2*y := ⟨c/2, by omega⟩
        rw [hy, multiply_two_mul_right, multiply_two_mul_right, ih y (by omega),
            multiply_two_mul_right]
      · obtain ⟨y, hy⟩ : ∃ y, c = 2*y+1 := ⟨c/2, by omega⟩
        rw [hy, multiply_odd, multiply_two_mul_left, ih y (by omega),
            multiply_odd, multiply_two_mul_left, multiply_distrib_right,
            multiply_two_mul_right a (multiply b y)]

theorem multiply_two_pow (k b : Nat) : multiply (2^k) b = 2^k * b := by
  induction k with
  | zero =>
    rw [Nat.pow_zero, multiply_one_left, Nat.one_mul]
  | succ n ih =>
    rw [Nat.pow_succ, Nat.mul_comm (2^n) 2, Nat.mul_assoc, multiply_two_mul_left, ih,
        ← Nat.mul_assoc, Nat.mul_comm 2 (2^n), Nat.mul_assoc]

theorem multiply_shiftLeft (p k : Nat) : p <<< k = multiply (2^k) p := by
  rw [multiply_two_pow, Nat.shiftLeft_eq, Nat.mul_comm]

/-- Degree is additive: the bit length of a nonzero carry-less product. -/
theorem multiply_bitLen (a b : Nat) (ha : a ≠ 0) (hb : b ≠ 0) :
    multiply a b ≠ 0 ∧ bitLen (multiply a b) = bitLen a + bitLen b - 1 := by
  induction b using Nat.strong_induction_on generalizing a with
  | _ b ih =>
    by_cases h1 : b = 1
    · subst h1
      rw [multiply_one_right]
      constructor
      · exact ha
      · have : bitLen 1 = 1 := rfl
        rw [this]
        omega
    · by_cases hbp : b % 2 = 0
      · obtain ⟨y, hy⟩ : ∃ y, b = 2*y := ⟨b/2, by omega⟩
        have hy0 : y ≠ 0 := by omega
        obtain ⟨hne, hlen⟩ := ih y (by omega) a ha hy0
        rw [hy, multiply_two_mul_right]
        constructor
        · omega
        · rw [bitLen_two_mul _ hne, hlen, bitLen_two_mul y hy0]
          have := bitLen_pos a ha
          have := bitLen_pos y hy0
          omega
      · obtain ⟨y, hy⟩ : ∃ y, b = 2*y+1 := ⟨b/2, by omega⟩
        have hy0 : y ≠ 0 := by omega
        obtain ⟨hne, hlen⟩ := ih y (by omega) a ha hy0
        rw [hy, multiply_odd, multiply_two_mul_left]
        have hlt : bitLen a < bitLen (2 * multiply a y) := by
          rw [bitLen_two_mul _ hne, hlen]
          have := bitLen_pos y hy0
          have := bitLen_pos a ha
          omega
        have hxl := bitLen_eq_of_xor_lt a (2 * multiply a y) hlt
        constructor
        · intro hzero
          rw [hzero] at hxl
          rw [bitLen_zero] at hxl
          have := bitLen_pos (2 * multiply a y) (by omega)
          omega
        · rw [hxl, bitLen_two_mul _ hne, hlen, bitLen_odd y]
          have := bitLen_pos a ha
          have := bitLen_pos y hy0
          omega

/-! ### bch.py: nndivide (GF(2) long division, producing the BCH syndrome)

Source (bch.py, lines 10-22): if num == 0 return 0; shift = num.bit_length()
- poly.bit_length(); mask = 1 << (num.bit_length() - 1); while shift >= 0:
if num >= mask: num ^= poly << shift; mask >>= 1; shift -= 1; return num.
The while loop runs shift+1 times when shift is nonnegative and not at all
otherwise; the first argument of the helper below counts the remaining
iterations, so a body entered with counter k+1 uses shift = k. -/

def nndivideGo (poly : Nat) : Nat → Nat → Nat → Nat
  | 0, num, _ => num
  | k+1, num, mask =>
      nndivideGo poly k (if mask ≤ num then num ^^^ (poly <<< k) else num) (mask / 2)

/-- Model of bch.py nndivide: remainder of dividing num by poly in GF(2). -/
def nndivide (poly num : Nat) : Nat :=
  if num = 0 then 0
  else nndivideGo poly (bitLen num + 1 - bitLen poly) num (2 ^ (bitLen num - 1))

theorem pow_div_two (k : Nat) (h : 1 ≤ k) : 2 ^ k / 2 = 2 ^ (k-1) := by
  have e : 2 ^ k = 2 ^ (k-1) * 2 := by
    rw [← Nat.pow_succ]
    congr 1
    omega
  omega

theorem nndivideGo_lt (poly t : Nat) (hp : 2 ≤ poly) (ht : bitLen poly = t + 1) :
    ∀ c num, num < 2 ^ (c + t) → nndivideGo poly c num (2 ^ (c + t) / 2) < 2 ^ t := by
  intro c
  induction c with
  | zero =>
    intro num h
    simpa using h
  | succ c ih =>
    intro num h
    have hpow : 2 ^ (c + 1 + t) / 2 = 2 ^ (c + t) := by
      rw [pow_div_two (c+1+t) (by omega)]
      congr 1
      omega
    simp only [nndivideGo, hpow]
    have hmask2 : 2 ^ (c + t) / 2 = 2 ^ (c + t) / 2 := rfl
    by_cases hge : 2 ^ (c + t) ≤ num
    · simp only [hge, if_true]
      apply ih
      have hply : 2 ^ t ≤ poly := by
        have := two_pow_le_of_bitLen poly (by omega)
        rw [ht] at this
        simpa using this
      have hpltu : poly < 2 ^ (t+1) := by
        have := lt_two_pow_bitLen poly
        rw [ht] at this
        exact this
      have hs1 : 2 ^ (c + t) ≤ poly <<< c := by
        rw [Nat.shiftLeft_eq]
        calc 2 ^ (c + t) = 2 ^ t * 2 ^ c := by rw [← Nat.pow_add]; congr 1; omega
          _ ≤ poly * 2 ^ c := Nat.mul_le_mul_right _ hply
      have hs2 : poly <<< c < 2 ^ (c + t + 1) := by
        rw [Nat.shiftLeft_eq]
        calc poly * 2 ^ c < 2 ^ (t+1) * 2 ^ c :=
              (Nat.mul_lt_mul_right (Nat.pos_pow_of_pos c (by omega))).mpr hpltu
          _ = 2 ^ (c + t + 1) := by rw [← Nat.pow_add]; congr 1; omega
      have hnum2 : num < 2 ^ (c + t + 1) := by
        have : c + 1 + t = c + t + 1 := by omega
        rw [this] at h
        exact h
      exact xor_lt_of_same_binade num (poly <<< c) (c+t) hge hnum2 hs1 hs2
    · simp only [hge, if_false]
      apply ih
      omega

theorem nndivide_lt (poly num : Nat) (hp : 2 ≤ poly) :
    nndivide poly num < 2 ^ (bitLen poly - 1) := by
  have hpz : poly ≠ 0 := by omega
  have htp : 1 ≤ bitLen poly := bitLen_pos poly hpz
  have ht2 : 2 ≤ bitLen poly := by
    by_contra hcon
    have h1 : bitLen poly ≤ 1 := by omega
    have := (bitLen_le_iff poly 1).mp h1
    omega
  unfold nndivide
  by_cases hz : num = 0
  · simp only [hz, if_true, if_pos rfl]
    exact Nat.pos_pow_of_pos _ (by omega)
  · simp only [hz, if_false]
    set t := bitLen poly - 1 with hts
    have ht : bitLen poly = t + 1 := by omega
    by_cases hK : bitLen num + 1 - bitLen poly = 0
    · rw [hK]
      simp only [nndivideGo]
      exact (bitLen_le_iff num t).mp (by omega)
    · set K := bitLen num + 1 - bitLen poly with hKs
      have hKt : K + t = bitLen num := by omega
      have hmask : 2 ^ (bitLen num - 1) = 2 ^ (K + t) / 2 := by
        rw [pow_div_two (K+t) (by omega)]
        congr 1
        omega
      rw [hmask]
      apply nndivideGo_lt poly t hp ht
      rw [hKt]
      exact lt_two_pow_bitLen num

theorem nndivideGo_ex (poly : Nat) :
    ∀ c num mask, ∃ q, nndivideGo poly c num mask = num ^^^ multiply q poly := by
  intro c
  induction c with
  | zero =>
    intro num mask
    exact ⟨0, by rw [multiply_zero_left, Nat.xor_zero]; rfl⟩
  | succ c ih =>
    intro num mask
    simp only [nndivideGo]
    by_cases hge : mask ≤ num
    · simp only [hge, if_true]
      obtain ⟨q, hq⟩ := ih (num ^^^ poly <<< c) (mask / 2)
      refine ⟨2^c ^^^ q, ?_⟩
      rw [hq, Nat.xor_assoc, multiply_shiftLeft, multiply_distrib_left]
    · simp only [hge, if_false]
      exact ih num (mask / 2)

theorem nndivide_ex (poly num : Nat) :
    ∃ q, num = multiply q poly ^^^ nndivide poly num := by
  unfold nndivide
  by_cases hz : num = 0
  · refine ⟨0, ?_⟩
    simp [hz, multiply_zero_left]
  · simp only [hz, if_false]
    obtain ⟨q, hq⟩ := nndivideGo_ex poly (bitLen num + 1 - bitLen poly) num (2 ^ (bitLen num - 1))
    refine ⟨q, ?_⟩
    rw [hq, Nat.xor_comm num (multiply q poly), ← Nat.xor_assoc, Nat.xor_self, Nat.zero_xor]

theorem nndivide_unique (poly num q r : Nat) (hp : 2 ≤ poly)
    (hr : r < 2 ^ (bitLen poly - 1)) (heq : num = multiply q poly ^^^ r) :
    nndivide poly num = r := by
  obtain ⟨q0, h0⟩ := nndivide_ex poly num
  set r0 := nndivide poly num with hr0s
  have hr0 : r0 < 2 ^ (bitLen poly - 1) := nndivide_lt poly num hp
  have hE : multiply q poly ^^^ r = multiply q0 poly ^^^ r0 := heq ▸ h0
  have hq0 : multiply q0 poly = multiply q poly ^^^ (r ^^^ r0) := by
    have := congrArg (fun z => z ^^^ r0) hE
    simp only [Nat.xor_cancel_right] at this
    rw [← this, Nat.xor_assoc]
  have hrr : multiply (q ^^^ q0) poly = r ^^^ r0 := by
    rw [multiply_distrib_left, hq0, ← Nat.xor_assoc, Nat.xor_self, Nat.zero_xor]
  by_cases hqq : q = q0
  · subst hqq
    rw [Nat.xor_self, multiply_zero_left] at hrr
    exact (Nat.xor_eq_zero.mp hrr.symm).symm
  · exfalso
    have hne : q ^^^ q0 ≠ 0 := by
      intro hc
      exact hqq (Nat.xor_eq_zero.mp hc)
    have hpz : poly ≠ 0 := by omega
    obtain ⟨hmne, hmlen⟩ := multiply_bitLen (q ^^^ q0) poly hne hpz
    have hge : 2 ^ (bitLen poly - 1) ≤ multiply (q ^^^ q0) poly := by
      have h1 := two_pow_le_of_bitLen (multiply (q ^^^ q0) poly) hmne
      have h2 : bitLen poly - 1 ≤ bitLen (multiply (q ^^^ q0) poly) - 1 := by
        have := bitLen_pos (q ^^^ q0) hne
        omega
      calc 2 ^ (bitLen poly - 1) ≤ 2 ^ (bitLen (multiply (q ^^^ q0) poly) - 1) :=
            Nat.pow_le_pow_right (by omega) h2
        _ ≤ multiply (q ^^^ q0) poly := h1
    have hlt : multiply (q ^^^ q0) poly < 2 ^ (bitLen poly - 1) := by
      rw [hrr]
      exact Nat.xor_lt_two_pow hr hr0
    omega

/-- GF(2) remainders are linear over xor. -/
theorem nndivide_linear (poly a b : Nat) (hp : 2 ≤ poly) :
    nndivide poly (a ^^^ b) = nndivide poly a ^^^ nndivide poly b := by
  obtain ⟨qa, ha⟩ := nndivide_ex poly a
  obtain ⟨qb, hb⟩ := nndivide_ex poly b
  apply nndivide_unique poly (a ^^^ b) (qa ^^^ qb) _ hp
  · exact Nat.xor_lt_two_pow (nndivide_lt poly a hp) (nndivide_lt poly b hp)
  · rw [multiply_distrib_left]
    calc a ^^^ b = (multiply qa poly ^^^ nndivide poly a) ^^^
          (multiply qb poly ^^^ nndivide poly b) := by rw [← ha, ← hb]
      _ = (multiply qa poly ^^^ multiply qb poly) ^^^
          (nndivide poly a ^^^ nndivide poly b) := by
            rw [Nat.xor_assoc, Nat.xor_assoc]
            congr 1
            rw [← Nat.xor_assoc, ← Nat.xor_assoc,
                Nat.xor_comm (nndivide poly a) (multiply qb poly)]

theorem nndivide_zero (poly : Nat) : nndivide poly 0 = 0 := rfl

theorem nndivide_multiple (poly k : Nat) (hp : 2 ≤ poly) :
    nndivide poly (multiply k poly) = 0 := by
  apply nndivide_unique poly (multiply k poly) k 0 hp
  · exact Nat.pos_pow_of_pos _ (by omega)
  · rw [Nat.xor_zero]

theorem nndivide_small (poly r : Nat) (hp : 2 ≤ poly)
    (h : r < 2 ^ (bitLen poly - 1)) : nndivide poly r = r := by
  apply nndivide_unique poly r 0 r hp h
  rw [multiply_zero_left, Nat.zero_xor]

/-- Reducing the left factor first does not change a reduced product. -/
theorem nndivide_congr_left (poly m c : Nat) (hp : 2 ≤ poly) :
    nndivide poly (multiply (nndivide poly m) c) = nndivide poly (multiply m c) := by
  obtain ⟨q, hq⟩ := nndivide_ex poly m
  have hr : m ^^^ multiply q poly = nndivide poly m := by
    conv_lhs => rw [hq]
    rw [Nat.xor_comm (multiply q poly) (nndivide poly m), Nat.xor_cancel_right]
  rw [← hr, multiply_distrib_left]
  have hswap : multiply (multiply q poly) c = multiply (multiply q c) poly := by
    rw [multiply_assoc, multiply_comm poly c, ← multiply_assoc]
  rw [hswap, nndivide_linear _ _ _ hp, nndivide_multiple _ _ hp, Nat.xor_zero]

theorem nndivide_congr_right (poly m c : Nat) (hp : 2 ≤ poly) :
    nndivide poly (multiply c (nndivide poly m)) = nndivide poly (multiply c m) := by
  rw [multiply_comm c (nndivide poly m), multiply_comm c m]
  exact nndivide_congr_left poly m c hp

/-! ### Reference field multiplication

The table lookups of the Reed-Solomon codecs are compared against this
structurally defined multiplication: carry-less product reduced modulo the
primitive polynomial.  It is a verification artifact, not source code. -/

def rmul (p a b : Nat) : Nat := nndivide p (multiply a b)

theorem rmul_comm (p a b : Nat) : rmul p a b = rmul p b a := by
  unfold rmul
  rw [multiply_comm]

theorem rmul_zero_left (p b : Nat) : rmul p 0 b = 0 := by
  unfold rmul
  rw [multiply_zero_left, nndivide_zero]

theorem rmul_zero_right (p a : Nat) : rmul p a 0 = 0 := by
  unfold rmul
  rw [multiply_zero_right, nndivide_zero]

theorem rmul_lt (p a b : Nat) (hp : 2 ≤ p) : rmul p a b < 2 ^ (bitLen p - 1) :=
  nndivide_lt p (multiply a b) hp

theorem rmul_one_left (p b : Nat) (hp : 2 ≤ p) (hb : b < 2 ^ (bitLen p - 1)) :
    rmul p 1 b = b := by
  unfold rmul
  rw [multiply_one_left]
  exact nndivide_small p b hp hb

theorem rmul_assoc (p a b c : Nat) (hp : 2 ≤ p) :
    rmul p (rmul p a b) c = rmul p a (rmul p b c) := by
  unfold rmul
  rw [nndivide_congr_left p (multiply a b) c hp,
      nndivide_congr_right p (multiply b c) a hp, multiply_assoc]

theorem rmul_distrib_left (p a b c : Nat) (hp : 2 ≤ p) :
    rmul p (a ^^^ b) c = rmul p a c ^^^ rmul p b c := by
  unfold rmul
  rw [multiply_distrib_left, nndivide_linear _ _ _ hp]

theorem rmul_distrib_right (p a b c : Nat) (hp : 2 ≤ p) :
    rmul p a (b ^^^ c) = rmul p a b ^^^ rmul p a c := by
  rw [rmul_comm p a (b ^^^ c), rmul_distrib_left p b c a hp, rmul_comm p b a,
      rmul_comm p c a]

/-! ### Bit strings

Python handles BCH codewords as strings of 0 and 1 characters; we model them
as List Bool with the head being the leftmost (most significant) character. -/

/-- Model of Python int(bits, 2) on a 0/1 string. -/
def bitsToNat (l : List Bool) : Nat :=
  l.foldl (fun acc bit => 2*acc + (if bit then 1 else 0)) 0

/-- Model of the Python format string producing exactly len binary digits,
most significant first; exact whenever the value is below 2 ^ len, which is
the only case reached inside repair. -/
def natToBits (len v : Nat) : List Bool :=
  (List.range len).map (fun k => v.testBit (len - 1 - k))

theorem bitsToNat_aux (l : List Bool) (acc : Nat) :
    l.foldl (fun acc bit => 2*acc + (if bit then 1 else 0)) acc =
      acc * 2 ^ l.length + bitsToNat l := by
  induction l generalizing acc with
  | nil => simp [bitsToNat]
  | cons b t ih =>
    simp only [List.foldl_cons, bitsToNat, List.length_cons]
    rw [ih, ih (2*0 + if b then 1 else 0)]
    cases b <;> simp <;> ring

theorem bitsToNat_append_bit (l : List Bool) (b : Bool) :
    bitsToNat (l ++ [b]) = 2 * bitsToNat l + (if b then 1 else 0) := by
  unfold bitsToNat
  rw [List.foldl_append]
  simp

theorem bitsToNat_lt (l : List Bool) : bitsToNat l < 2 ^ l.length := by
  induction l using List.reverseRecOn with
  | nil => simp [bitsToNat]
  | append_singleton t b ih =>
    rw [bitsToNat_append_bit]
    simp only [List.length_append, List.length_cons, List.length_nil]
    have : 2 ^ (t.length + 1) = 2 * 2 ^ t.length := by ring
    rw [this]
    cases b <;> simp <;> omega

theorem natToBits_length (len v : Nat) : (natToBits len v).length = len := by
  simp [natToBits]

theorem natToBits_succ (n v : Nat) :
    natToBits (n+1) v = natToBits n (v/2) ++ [v.testBit 0] := by
  unfold natToBits
  rw [List.range_succ, List.map_append]
  congr 1
  · apply List.map_congr_left
    intro k hk
    have hk' : k < n := List.mem_range.mp hk
    have e : n + 1 - 1 - k = (n - 1 - k) + 1 := by omega
    rw [e, Nat.testBit_succ]
  · simp

theorem natToBits_bitsToNat (l : List Bool) : natToBits l.length (bitsToNat l) = l := by
  induction l using List.reverseRecOn with
  | nil => rfl
  | append_singleton t b ih =>
    rw [bitsToNat_append_bit]
    simp only [List.length_append, List.length_cons, List.length_nil]
    rw [natToBits_succ]
    have hdiv : (2 * bitsToNat t + (if b then 1 else 0)) / 2 = bitsToNat t := by
      cases b <;> simp <;> omega
    have hbit : (2 * bitsToNat t + (if b then 1 else 0)).testBit 0 = b := by
      rw [Nat.testBit_zero]
      cases b <;> simp <;> omega
    rw [hdiv, hbit, ih]

theorem bitsToNat_natToBits (len v : Nat) (h : v < 2 ^ len) :
    bitsToNat (natToBits len v) = v := by
  induction len generalizing v with
  | zero =>
    simp at h
    simp [natToBits, bitsToNat, h]
  | succ n ih =>
    rw [natToBits_succ, bitsToNat_append_bit]
    have hd : v / 2 < 2 ^ n := by
      rw [Nat.pow_succ] at h
      omega
    rw [ih (v/2) hd, Nat.testBit_zero]
    by_cases hpar : v % 2 = 1
    · simp [hpar]
      omega
    · simp [hpar]
      omega

theorem bitsToNat_replicate_false (k : Nat) (l : List Bool) :
    bitsToNat (List.replicate k false ++ l) = bitsToNat l := by
  induction k with
  | zero => simp
  | succ n ih =>
    rw [List.replicate_succ, List.cons_append]
    unfold bitsToNat at *
    simp only [List.foldl_cons]
    simpa using ih

/-! ### bch.py: ndivide and repair -/

/-- Model of bch.py ndivide (lines 24-27): parse the bit string as a binary
integer and divide. -/
def ndivide (poly : Nat) (bits : List Bool) : Nat := nndivide poly (bitsToNat bits)

/-- Model of bch.py repair (lines 54-74).  The two Python for loops with
early returns are find? over the same index ranges in the same order; the
corrected word is rendered back to blen characters exactly as the Python
format string does. -/
def repair (poly : Nat) (b : List Bool) : Int × List Bool :=
  if nndivide poly (bitsToNat b) = 0 then (0, b)
  else
    match (List.range b.length).find?
        (fun b1 => nndivide poly (bitsToNat b ^^^ (1 <<< b1)) == 0) with
    | some b1 => (1, natToBits b.length (bitsToNat b ^^^ (1 <<< b1)))
    | none =>
      match (List.range b.length).findSome? (fun b1 =>
          ((List.range' (b1+1) (b.length - (b1+1))).find? (fun b2 =>
            nndivide poly (bitsToNat b ^^^ (1 <<< b1) ^^^ (1 <<< b2)) == 0)).map
              (fun b2 => (b1, b2))) with
      | some pair => (2, natToBits b.length (bitsToNat b ^^^ (1 <<< pair.1) ^^^ (1 <<< pair.2)))
      | none => (-1, b)

/-- One BCH configuration as installed by bch.py init (lines 100-107). -/
structure BchConfig where
  poly : Nat
  bits : Nat
  synbits : Nat
  errors : Nat
deriving DecidableEq, Repr

/-- The six configurations that bch.py init installs at import time; the
calls without an errors argument use the default errors=1. -/
def bchConfigs : List BchConfig :=
  [⟨29, 7, 4, 1⟩, ⟨465, 14, 8, 2⟩, ⟨41, 26, 5, 1⟩,
   ⟨1897, 31, 10, 2⟩, ⟨1207, 31, 10, 2⟩, ⟨3545, 31, 11, 2⟩]

/-- Model of the first mk_syn loop (bch.py, lines 84-87): record every
single-bit pattern, writing its slot unconditionally. -/
def synPhase1 (poly bits : Nat) (t0 : List (Option (Nat × Nat))) :
    List (Option (Nat × Nat)) :=
  (List.range bits).foldl
    (fun t n1 => t.set (nndivide poly (1 <<< n1)) (some (1, 1 <<< n1))) t0

/-- Model of the second mk_syn loop (bch.py, lines 89-97): record every
two-bit pattern, but only into a slot that still holds None. -/
def synPhase2 (poly bits : Nat) (t1 : List (Option (Nat × Nat))) :
    List (Option (Nat × Nat)) :=
  (List.range bits).foldl (fun t n1 =>
    (List.range' (n1+1) (bits - (n1+1))).foldl (fun t' n2 =>
      let val := (1 <<< n1) ||| (1 <<< n2)
      let r := nndivide poly val
      if t'.getD r none = none then t'.set r (some (2, val)) else t') t) t1

/-- Model of bch.py mk_syn (lines 76-97): the table stored in the global
syndromes dict for one polynomial.  A slot holds none (Python None) or
some (weight, pattern). -/
def mk_syn (poly bits synbits errors : Nat) : List (Option (Nat × Nat)) :=
  if 2 ≤ errors then
    synPhase2 poly bits (synPhase1 poly bits (List.replicate (2 ^ synbits) none))
  else synPhase1 poly bits (List.replicate (2 ^ synbits) none)

/-- Modelled from the spec (sections 3 and 4.2): the same enumeration of
error patterns in the same order, but with every write guarded by the slot
being empty, so the first enumerated pattern for a syndrome always wins and
no later pattern of equal or lower weight ever replaces an earlier entry. -/
def specPhase1 (poly bits : Nat) (t0 : List (Option (Nat × Nat))) :
    List (Option (Nat × Nat)) :=
  (List.range bits).foldl
    (fun t n1 =>
      if t.getD (nndivide poly (1 <<< n1)) none = none
      then t.set (nndivide poly (1 <<< n1)) (some (1, 1 <<< n1)) else t) t0

/-- Modelled from the spec (sections 3 and 4.2): the fully first-wins table;
the two-bit phase is already first-wins in the source and is shared. -/
def specFirstWinsTable (poly bits synbits errors : Nat) : List (Option (Nat × Nat)) :=
  if 2 ≤ errors then
    synPhase2 poly bits (specPhase1 poly bits (List.replicate (2 ^ synbits) none))
  else specPhase1 poly bits (List.replicate (2 ^ synbits) none)

/-! ### find? helpers: the Python for loop with early return -/

theorem find?_range'_first (p : Nat → Bool) (i : Nat) :
    ∀ s n, s ≤ i → i < s + n → p i = true → (∀ m, s ≤ m → m < i → p m = false) →
    (List.range' s n).find? p = some i := by
  intro s n
  induction n generalizing s with
  | zero =>
    intro h1 h2
    omega
  | succ n ih =>
    intro h1 h2 hp hmin
    rw [show List.range' s (n+1) = s :: List.range' (s+1) n from rfl]
    by_cases hsi : s = i
    · subst hsi
      exact List.find?_cons_of_pos _ hp
    · have hps : ¬ p s = true := by
        rw [hmin s (le_refl s) (by omega)]
        simp
      rw [List.find?_cons_of_neg _ hps]
      exact ih (s+1) (by omega) (by omega) hp (fun m hm1 hm2 => hmin m (by omega) hm2)

theorem find?_range_first (p : Nat → Bool) (i n : Nat) (hi : i < n)
    (hp : p i = true) (hmin : ∀ m, m < i → p m = false) :
    (List.range n).find? p = some i := by
  rw [List.range_eq_range' n]
  exact find?_range'_first p i 0 n (by omega) (by omega) hp (fun m _ hm => hmin m hm)

theorem find?_range_none (p : Nat → Bool) (n : Nat)
    (h : ∀ m, m < n → p m = false) : (List.range n).find? p = none := by
  rw [List.find?_eq_none]
  intro x hx
  rw [h x (List.mem_range.mp hx)]
  simp

theorem find?_range'_none (p : Nat → Bool) (s n : Nat)
    (h : ∀ m, s ≤ m → m < s + n → p m = false) : (List.range' s n).find? p = none := by
  rw [List.find?_eq_none]
  intro x hx
  obtain ⟨h1, h2⟩ := List.mem_range'_1.mp hx
  rw [h x h1 h2]
  simp

/-! ### Claim C4 machinery: repair corrects any single flipped bit -/

theorem repair_single_flip (poly bits : Nat) (hp : 2 ≤ poly)
    (hnz : ∀ a, a < bits → nndivide poly (1 <<< a) ≠ 0)
    (hinj : ∀ a, a < bits → ∀ b, b < a →
      nndivide poly ((1 <<< a) ^^^ (1 <<< b)) ≠ 0)
    (c : List Bool) (hc : c.length = bits)
    (hv : nndivide poly (bitsToNat c) = 0)
    (i : Nat) (hi : i < bits) :
    repair poly (natToBits bits (bitsToNat c ^^^ (1 <<< i))) = (1, c) := by
  have hvlt : bitsToNat c < 2 ^ bits := by
    rw [← hc]
    exact bitsToNat_lt c
  have hshift : (1 <<< i) < 2 ^ bits := by
    rw [Nat.one_shiftLeft]
    exact Nat.pow_lt_pow_right (by omega) hi
  have hxorlt : bitsToNat c ^^^ (1 <<< i) < 2 ^ bits :=
    Nat.xor_lt_two_pow hvlt hshift
  have hbnum : bitsToNat (natToBits bits (bitsToNat c ^^^ (1 <<< i))) =
      bitsToNat c ^^^ (1 <<< i) := bitsToNat_natToBits bits _ hxorlt
  have hblen : (natToBits bits (bitsToNat c ^^^ (1 <<< i))).length = bits :=
    natToBits_length bits _
  unfold repair
  simp only [hbnum, hblen]
  have hsyn : nndivide poly (bitsToNat c ^^^ (1 <<< i)) =
      nndivide poly (1 <<< i) := by
    rw [nndivide_linear poly _ _ hp, hv, Nat.zero_xor]
  rw [if_neg (by rw [hsyn]; exact hnz i hi)]
  have hfind : (List.range bits).find?
      (fun b1 => nndivide poly (bitsToNat c ^^^ (1 <<< i) ^^^ (1 <<< b1)) == 0) =
      some i := by
    apply find?_range_first _ i bits hi
    · rw [Nat.xor_cancel_right]
      simp [hv]
    · intro m hm
      have e : bitsToNat c ^^^ (1 <<< i) ^^^ (1 <<< m) =
          bitsToNat c ^^^ ((1 <<< i) ^^^ (1 <<< m)) := by
        rw [Nat.xor_assoc]
      rw [e]
      have h2 : nndivide poly (bitsToNat c ^^^ ((1 <<< i) ^^^ (1 <<< m))) =
          nndivide poly ((1 <<< i) ^^^ (1 <<< m)) := by
        rw [nndivide_linear poly _ _ hp, hv, Nat.zero_xor]
      simp only [h2]
      have h3 := hinj i hi m hm
      simp [h3]
  simp only [hfind, Nat.xor_cancel_right]
  rw [← hc, natToBits_bitsToNat]

/-- Claim C4: for each of the six BCH configurations and every bit position
i below the codeword bit length, flipping bit i of any valid codeword
(zero syndrome) and calling repair returns the pair (1, original codeword). -/
theorem claim_C4 : ∀ cfg ∈ bchConfigs, ∀ (c : List Bool) (i : Nat),
    c.length = cfg.bits → nndivide cfg.poly (bitsToNat c) = 0 → i < cfg.bits →
    repair cfg.poly (natToBits cfg.bits (bitsToNat c ^^^ (1 <<< i))) = (1, c) := by
  intro cfg hmem c i hc hv hi
  fin_cases hmem
  · exact repair_single_flip 29 7 (by omega)
      (by decide) (by decide) c hc hv i hi
  · exact repair_single_flip 465 14 (by omega)
      (by decide) (by decide) c hc hv i hi
  · exact repair_single_flip 41 26 (by omega)
      (by decide) (by decide) c hc hv i hi
  · exact repair_single_flip 1897 31 (by omega)
      (by decide) (by decide) c hc hv i hi
  · exact repair_single_flip 1207 31 (by omega)
      (by decide) (by decide) c hc hv i hi
  · exact repair_single_flip 3545 31 (by omega)
      (by decide) (by decide) c hc hv i hi

theorem claim_C4_witness :
    (⟨29, 7, 4, 1⟩ : BchConfig) ∈ bchConfigs ∧
    repair 29 (natToBits 7 (bitsToNat (List.replicate 7 false) ^^^ (1 <<< 3))) =
      (1, List.replicate 7 false) :=
  ⟨by decide,
   claim_C4 ⟨29, 7, 4, 1⟩ (by decide) (List.replicate 7 false) 3
     (by decide) (by decide) (by decide)⟩

/-- Claim C5: for every generator polynomial and every received word with a
nonzero syndrome, when no single flip and no pair of flips zeroes the
syndrome, repair returns the sentinel -1 together with the exact word it
received. -/
theorem claim_C5 : ∀ (poly : Nat) (b : List Bool),
    nndivide poly (bitsToNat b) ≠ 0 →
    (∀ b1, b1 < b.length → nndivide poly (bitsToNat b ^^^ (1 <<< b1)) ≠ 0) →
    (∀ b2, b2 < b.length → ∀ b1, b1 < b2 →
      nndivide poly (bitsToNat b ^^^ (1 <<< b1) ^^^ (1 <<< b2)) ≠ 0) →
    repair poly b = (-1, b) := by
  intro poly b h0 h1 h2
  unfold repair
  rw [if_neg h0]
  have hfind : (List.range b.length).find?
      (fun b1 => nndivide poly (bitsToNat b ^^^ (1 <<< b1)) == 0) = none := by
    apply find?_range_none
    intro m hm
    simp [h1 m hm]
  have hpair : (List.range b.length).findSome? (fun b1 =>
      ((List.range' (b1+1) (b.length - (b1+1))).find? (fun b2 =>
        nndivide poly (bitsToNat b ^^^ (1 <<< b1) ^^^ (1 <<< b2)) == 0)).map
          (fun b2 => (b1, b2))) = none := by
    rw [List.findSome?_eq_none_iff]
    intro b1 hb1
    have hb1' : b1 < b.length := List.mem_range.mp hb1
    have hinner : (List.range' (b1+1) (b.length - (b1+1))).find? (fun b2 =>
        nndivide poly (bitsToNat b ^^^ (1 <<< b1) ^^^ (1 <<< b2)) == 0) = none := by
      apply find?_range'_none
      intro m hm1 hm2
      simp [h2 m (by omega) b1 (by omega)]
    rw [hinner]
    rfl
  simp only [hfind, hpair]

theorem claim_C5_witness :
    nndivide 1897 (bitsToNat (natToBits 31 7)) ≠ 0 ∧
    repair 1897 (natToBits 31 7) = (-1, natToBits 31 7) := by
  refine ⟨by decide, claim_C5 1897 (natToBits 31 7) (by decide) ?_ ?_⟩
  · decide
  · decide

/-- Claim C8: for every polynomial and every word with zero syndrome,
repair returns (0, word) unchanged; in particular the all-zero 7-bit word
under poly 29. -/
theorem claim_C8 :
    (∀ (poly : Nat) (b : List Bool), nndivide poly (bitsToNat b) = 0 →
      repair poly b = (0, b)) ∧
    repair 29 (List.replicate 7 false) = (0, List.replicate 7 false) := by
  constructor
  · intro poly b h
    unfold repair
    rw [if_pos h]
  · decide

theorem claim_C8_witness : repair 29 (List.replicate 7 false) =
    (0, List.replicate 7 false) :=
  claim_C8.1 29 (List.replicate 7 false) (by decide)

/-- Claim C9: the GF(2) remainder depends only on the integer value of the
dividend, and prepending zero bits to the bit-string argument of ndivide
leaves the syndrome unchanged. -/
theorem claim_C9 :
    (∀ (p : Nat) (d1 d2 : List Bool), 2 ≤ p → bitsToNat d1 = bitsToNat d2 →
      ndivide p d1 = ndivide p d2) ∧
    (∀ (p k : Nat) (bits : List Bool), 2 ≤ p →
      ndivide p (List.replicate k false ++ bits) = ndivide p bits) := by
  constructor
  · intro p d1 d2 _ h
    unfold ndivide
    rw [h]
  · intro p k bits _
    unfold ndivide
    rw [bitsToNat_replicate_false]

theorem claim_C9_witness :
    ndivide 29 (List.replicate 3 false ++ [true, false, true]) =
      ndivide 29 [true, false, true] :=
  claim_C9.2 29 3 [true, false, true] (by omega)

/-- Claim C10: in each installed configuration the table size matches
2 ^ (bit_length(poly) - 1), and the remainder of every 1-bit or 2-bit error
pattern over the codeword length is strictly below 2 ^ synbits, so each
table write is within bounds. -/
theorem claim_C10 : ∀ cfg ∈ bchConfigs,
    2 ^ cfg.synbits = 2 ^ (bitLen cfg.poly - 1) ∧
    (∀ n1, n1 < cfg.bits → nndivide cfg.poly (1 <<< n1) < 2 ^ cfg.synbits) ∧
    (∀ n2, n2 < cfg.bits → ∀ n1, n1 < n2 →
      nndivide cfg.poly ((1 <<< n1) ||| (1 <<< n2)) < 2 ^ cfg.synbits) := by
  decide

theorem claim_C10_witness :
    (⟨29, 7, 4, 1⟩ : BchConfig) ∈ bchConfigs ∧
    nndivide 29 (1 <<< 3) < 2 ^ 4 :=
  ⟨by decide, ((claim_C10 ⟨29, 7, 4, 1⟩ (by decide)).2.1 3 (by decide))⟩

theorem getD_set_ne (l : List (Option (Nat × Nat))) (i k : Nat)
    (v : Option (Nat × Nat)) (h : i ≠ k) :
    (l.set i v).getD k none = l.getD k none := by
  rw [List.getD_eq_getElem?_getD, List.getElem?_set_ne h, ← List.getD_eq_getElem?_getD]

theorem getD_replicate_none (k i : Nat) :
    (List.replicate k (none : Option (Nat × Nat))).getD i none = none := by
  rw [List.getD_eq_getElem?_getD, List.getElem?_replicate]
  split <;> rfl

/-- Unconditional writes of the single-bit phase agree with the guarded
writes as long as the written slots are pairwise distinct and empty. -/
theorem synPhase1_go_eq (poly : Nat) :
    ∀ (n j : Nat) (t : List (Option (Nat × Nat))),
    (∀ m, j ≤ m → m < j + n → t.getD (nndivide poly (1 <<< m)) none = none) →
    (∀ a b, j ≤ a → a < j + n → j ≤ b → b < j + n → a ≠ b →
      nndivide poly (1 <<< a) ≠ nndivide poly (1 <<< b)) →
    (List.range' j n).foldl
      (fun t n1 => t.set (nndivide poly (1 <<< n1)) (some (1, 1 <<< n1))) t =
    (List.range' j n).foldl
      (fun t n1 =>
        if t.getD (nndivide poly (1 <<< n1)) none = none
        then t.set (nndivide poly (1 <<< n1)) (some (1, 1 <<< n1)) else t) t := by
  intro n
  induction n with
  | zero =>
    intro j t _ _
    rfl
  | succ n ih =>
    intro j t hnone hdist
    rw [show List.range' j (n+1) = j :: List.range' (j+1) n from rfl]
    simp only [List.foldl_cons]
    rw [if_pos (hnone j (le_refl j) (by omega))]
    apply ih (j+1)
    · intro m hm1 hm2
      rw [getD_set_ne]
      · exact hnone m (by omega) (by omega)
      · exact hdist j m (le_refl j) (by omega) (by omega) (by omega) (by omega)
    · intro a b ha1 ha2 hb1 hb2 hab
      exact hdist a b (by omega) (by omega) (by omega) (by omega) hab

theorem mk_syn_eq_spec (poly bits synbits errors : Nat)
    (hdist : ∀ a, a < bits → ∀ b, b < a →
      nndivide poly (1 <<< a) ≠ nndivide poly (1 <<< b)) :
    mk_syn poly bits synbits errors = specFirstWinsTable poly bits synbits errors := by
  have hph : synPhase1 poly bits (List.replicate (2 ^ synbits) none) =
      specPhase1 poly bits (List.replicate (2 ^ synbits) none) := by
    unfold synPhase1 specPhase1
    rw [List.range_eq_range' bits]
    apply synPhase1_go_eq
    · intro m _ _
      exact getD_replicate_none _ _
    · intro a b _ ha2 _ hb2 hab
      rcases Nat.lt_or_ge a b with h | h
      · exact (hdist b (by omega) a h).symm
      · exact hdist a (by omega) b (by omega)
  unfold mk_syn specFirstWinsTable
  rw [hph]

/-- Claim C6: for each of the six configurations the table built by mk_syn
equals the table built by the first-wins discipline the spec describes: the
entry at every occupied syndrome is the first enumerated pattern producing
it, so no later pattern of equal or lower weight replaces an earlier one. -/
theorem claim_C6 : ∀ cfg ∈ bchConfigs,
    mk_syn cfg.poly cfg.bits cfg.synbits cfg.errors =
      specFirstWinsTable cfg.poly cfg.bits cfg.synbits cfg.errors := by
  intro cfg hmem
  fin_cases hmem
  · exact mk_syn_eq_spec 29 7 4 1 (by decide)
  · exact mk_syn_eq_spec 465 14 8 2 (by decide)
  · exact mk_syn_eq_spec 41 26 5 1 (by decide)
  · exact mk_syn_eq_spec 1897 31 10 2 (by decide)
  · exact mk_syn_eq_spec 1207 31 10 2 (by decide)
  · exact mk_syn_eq_spec 3545 31 11 2 (by decide)

theorem claim_C6_witness :
    mk_syn 29 7 4 1 = specFirstWinsTable 29 7 4 1 :=
  claim_C6 ⟨29, 7, 4, 1⟩ (by decide)

/-! ### Generic Reed-Solomon building blocks

Both reedsolo.py and reedsolo6.py share the same synthetic-division encoder
and the same Horner syndrome evaluation, differing only in the field
multiplication and its tables.  The functions below are parameterized by
that multiplication; each module instantiates them with its own gf multiply
function.  polyEvalFrom is the running state of the Horner loop the spec
describes for gf_poly_eval; xorScaledM is one pass of the inner encode loop
(msg_out[i+j] ^= mul(gen[j], coef) for j over gen, rewriting the suffix of
the working array that starts at offset i); encodeStep and encodeLoop are
the guarded outer loop of rs_encode_msg. -/

def polyEvalFrom (mul : Nat → Nat → Nat) (r : Nat) : Nat → List Nat → Nat
  | acc, [] => acc
  | acc, c :: rest => polyEvalFrom mul r (mul acc r ^^^ c) rest

def xorScaledM (mul : Nat → Nat → Nat) (coef : Nat) : List Nat → List Nat → List Nat
  | [], v => v
  | _ :: _, [] => []
  | g :: gs, x :: xs => (x ^^^ mul g coef) :: xorScaledM mul coef gs xs

def encodeStep (mul : Nat → Nat → Nat) (gen : List Nat) (s : List Nat) (i : Nat) :
    List Nat :=
  if s.getD i 0 ≠ 0 then s.take i ++ xorScaledM mul (s.getD i 0) gen (s.drop i) else s

def encodeLoop (mul : Nat → Nat → Nat) (gen msg : List Nat) (pad : Nat) : List Nat :=
  (List.range msg.length).foldl (encodeStep mul gen) (msg ++ List.replicate pad 0)

theorem polyEvalFrom_append (mul : Nat → Nat → Nat) (r : Nat) (l1 l2 : List Nat) :
    ∀ acc, polyEvalFrom mul r acc (l1 ++ l2) =
      polyEvalFrom mul r (polyEvalFrom mul r acc l1) l2 := by
  induction l1 with
  | nil => intro acc; rfl
  | cons c rest ih =>
    intro acc
    simp only [List.cons_append, polyEvalFrom]
    exact ih (mul acc r ^^^ c)

theorem polyEvalFrom_zeros (mul : Nat → Nat → Nat) (r : Nat)
    (hz1 : ∀ y, mul 0 y = 0) (k : Nat) :
    polyEvalFrom mul r 0 (List.replicate k 0) = 0 := by
  induction k with
  | zero => rfl
  | succ n ih =>
    rw [List.replicate_succ]
    simp only [polyEvalFrom, hz1, Nat.xor_zero]
    exact ih

theorem polyEvalFrom_lt (mul : Nat → Nat → Nat) (r w : Nat)
    (hbound : ∀ x y, mul x y < 2 ^ w) :
    ∀ l acc, acc < 2 ^ w → (∀ x ∈ l, x < 2 ^ w) →
      polyEvalFrom mul r acc l < 2 ^ w := by
  intro l
  induction l with
  | nil =>
    intro acc ha _
    exact ha
  | cons c rest ih =>
    intro acc ha hl
    simp only [polyEvalFrom]
    apply ih
    · exact Nat.xor_lt_two_pow (hbound acc r) (hl c (by simp))
    · intro x hx
      exact hl x (by simp [hx])

theorem zipXor_zero_right (l : List Nat) :
    List.zipWith (fun a b => a ^^^ b) l (List.replicate l.length 0) = l := by
  induction l with
  | nil => rfl
  | cons x xs ih =>
    simp only [List.length_cons, List.replicate_succ, List.zipWith_cons_cons,
      Nat.xor_zero]
    rw [ih]

theorem zipXor_zero_left (l : List Nat) :
    List.zipWith (fun a b => a ^^^ b) (List.replicate l.length 0) l = l := by
  induction l with
  | nil => rfl
  | cons x xs ih =>
    simp only [List.length_cons, List.replicate_succ, List.zipWith_cons_cons,
      Nat.zero_xor]
    rw [ih]

theorem polyEvalFrom_zip (mul : Nat → Nat → Nat) (r w : Nat)
    (hbound : ∀ x y, mul x y < 2 ^ w)
    (hdistL : ∀ x y z, x < 2 ^ w → y < 2 ^ w → z < 2 ^ w →
      mul (x ^^^ y) z = mul x z ^^^ mul y z)
    (hr : r < 2 ^ w) :
    ∀ (l1 l2 : List Nat) (acc1 acc2 : Nat), l1.length = l2.length →
      (∀ x ∈ l1, x < 2 ^ w) → (∀ x ∈ l2, x < 2 ^ w) →
      acc1 < 2 ^ w → acc2 < 2 ^ w →
      polyEvalFrom mul r (acc1 ^^^ acc2) (List.zipWith (fun a b => a ^^^ b) l1 l2) =
        polyEvalFrom mul r acc1 l1 ^^^ polyEvalFrom mul r acc2 l2 := by
  intro l1
  induction l1 with
  | nil =>
    intro l2 acc1 acc2 hlen _ _ _ _
    have : l2 = [] := by
      cases l2 with
      | nil => rfl
      | cons _ _ => simp at hlen
    subst this
    rfl
  | cons x xs ih =>
    intro l2 acc1 acc2 hlen hl1 hl2 ha1 ha2
    cases l2 with
    | nil => simp at hlen
    | cons y ys =>
      simp only [List.zipWith_cons_cons, polyEvalFrom]
      have hmix : mul (acc1 ^^^ acc2) r ^^^ (x ^^^ y) =
          (mul acc1 r ^^^ x) ^^^ (mul acc2 r ^^^ y) := by
        rw [hdistL acc1 acc2 r ha1 ha2 hr]
        rw [Nat.xor_assoc (mul acc1 r) (mul acc2 r) (x ^^^ y),
            Nat.xor_assoc (mul acc1 r) x (mul acc2 r ^^^ y)]
        congr 1
        rw [← Nat.xor_assoc (mul acc2 r) x y, Nat.xor_comm (mul acc2 r) x,
            Nat.xor_assoc x (mul acc2 r) y]
      rw [hmix]
      apply ih ys _ _ (by simpa using hlen)
      · intro a ha
        exact hl1 a (by simp [ha])
      · intro a ha
        exact hl2 a (by simp [ha])
      · exact Nat.xor_lt_two_pow (hbound acc1 r) (hl1 x (by simp))
      · exact Nat.xor_lt_two_pow (hbound acc2 r) (hl2 y (by simp))

theorem polyEvalFrom_scale (mul : Nat → Nat → Nat) (r w : Nat)
    (hbound : ∀ x y, mul x y < 2 ^ w)
    (hone : ∀ y, y < 2 ^ w → mul 1 y = y)
    (hcomm : ∀ x y, x < 2 ^ w → y < 2 ^ w → mul x y = mul y x)
    (hassoc : ∀ x y z, x < 2 ^ w → y < 2 ^ w → z < 2 ^ w →
      mul (mul x y) z = mul x (mul y z))
    (hdistL : ∀ x y z, x < 2 ^ w → y < 2 ^ w → z < 2 ^ w →
      mul (x ^^^ y) z = mul x z ^^^ mul y z)
    (hr : r < 2 ^ w) (c : Nat) (hc : c < 2 ^ w) :
    ∀ (gs : List Nat) (a : Nat), (∀ x ∈ gs, x < 2 ^ w) → a < 2 ^ w →
      polyEvalFrom mul r (mul c a) (gs.map (fun g => mul g c)) =
        mul c (polyEvalFrom mul r a gs) := by
  intro gs
  induction gs with
  | nil =>
    intro a _ _
    rfl
  | cons g rest ih =>
    intro a hgs ha
    simp only [List.map_cons, polyEvalFrom]
    have key : mul (mul c a) r ^^^ mul g c = mul c (mul a r ^^^ g) := by
      have hg : g < 2 ^ w := hgs g (by simp)
      have har : mul a r < 2 ^ w := hbound a r
      rw [hcomm c (mul a r ^^^ g) hc (Nat.xor_lt_two_pow har hg)]
      rw [hdistL (mul a r) g c har hg hc]
      congr 1
      · rw [hcomm (mul a r) c har hc, ← hassoc c a r hc ha hr]
    rw [key]
    apply ih (mul a r ^^^ g)
    · intro x hx
      exact hgs x (by simp [hx])
    · exact Nat.xor_lt_two_pow (hbound a r) (hgs g (by simp))

theorem xorScaledM_zip (mul : Nat → Nat → Nat) (coef : Nat) :
    ∀ (gen v : List Nat), gen.length ≤ v.length →
      xorScaledM mul coef gen v =
        List.zipWith (fun a b => a ^^^ b) v
          (gen.map (fun g => mul g coef) ++ List.replicate (v.length - gen.length) 0) := by
  intro gen
  induction gen with
  | nil =>
    intro v _
    simp only [xorScaledM, List.map_nil, List.nil_append, List.length_nil,
      Nat.sub_zero]
    rw [zipXor_zero_right v]
  | cons g gs ih =>
    intro v hlen
    cases v with
    | nil => simp at hlen
    | cons x xs =>
      simp only [xorScaledM, List.map_cons, List.cons_append, List.zipWith_cons_cons]
      congr 1
      have : (x :: xs).length - (g :: gs).length = xs.length - gs.length := by
        simp
      rw [this]
      exact ih xs (by simpa using hlen)

theorem xorScaledM_length (mul : Nat → Nat → Nat) (coef : Nat) :
    ∀ (gen v : List Nat), gen.length ≤ v.length →
      (xorScaledM mul coef gen v).length = v.length := by
  intro gen v h
  rw [xorScaledM_zip mul coef gen v h]
  simp
  omega

theorem xorScaledM_mem_lt (mul : Nat → Nat → Nat) (coef w : Nat)
    (hbound : ∀ x y, mul x y < 2 ^ w) :
    ∀ (gen v : List Nat), (∀ x ∈ v, x < 2 ^ w) →
      ∀ x ∈ xorScaledM mul coef gen v, x < 2 ^ w := by
  intro gen
  induction gen with
  | nil =>
    intro v hv x hx
    exact hv x hx
  | cons g gs ih =>
    intro v hv x hx
    cases v with
    | nil => simp [xorScaledM] at hx
    | cons a as =>
      simp only [xorScaledM, List.mem_cons] at hx
      rcases hx with h | h
      · subst h
        exact Nat.xor_lt_two_pow (hv a (by simp)) (hbound g coef)
      · exact ih as (fun y hy => hv y (by simp [hy])) x h

/-- The head of one encode pass: position i is zeroed because the generator
polynomial is monic. -/
theorem xorScaledM_head (mul : Nat → Nat → Nat) (w coef : Nat)
    (hone : ∀ y, y < 2 ^ w → mul 1 y = y) (hc : coef < 2 ^ w)
    (gs xs : List Nat) :
    xorScaledM mul coef (1 :: gs) (coef :: xs) = 0 :: xorScaledM mul coef gs xs := by
  simp only [xorScaledM]
  rw [hone coef hc, Nat.xor_self]

/-- One pass of the encode loop preserves length, element bounds and the
value at every root of the generator, and zeroes position j. -/
theorem encodeStep_spec (mul : Nat → Nat → Nat) (w : Nat)
    (hz1 : ∀ y, mul 0 y = 0) (hz2 : ∀ x, mul x 0 = 0)
    (hone : ∀ y, y < 2 ^ w → mul 1 y = y)
    (hcomm : ∀ x y, x < 2 ^ w → y < 2 ^ w → mul x y = mul y x)
    (hassoc : ∀ x y z, x < 2 ^ w → y < 2 ^ w → z < 2 ^ w →
      mul (mul x y) z = mul x (mul y z))
    (hdistL : ∀ x y z, x < 2 ^ w → y < 2 ^ w → z < 2 ^ w →
      mul (x ^^^ y) z = mul x z ^^^ mul y z)
    (hbound : ∀ x y, mul x y < 2 ^ w)
    (gen : List Nat) (hg1 : gen.getD 0 0 = 1) (hgne : gen ≠ [])
    (hgel : ∀ x ∈ gen, x < 2 ^ w)
    (r : Nat) (hr : r < 2 ^ w) (hroot : polyEvalFrom mul r 0 gen = 0)
    (s : List Nat) (j : Nat) (hj : j + gen.length ≤ s.length)
    (hel : ∀ x ∈ s, x < 2 ^ w) :
    (encodeStep mul gen s j).length = s.length ∧
    (∀ x ∈ encodeStep mul gen s j, x < 2 ^ w) ∧
    polyEvalFrom mul r 0 (encodeStep mul gen s j) = polyEvalFrom mul r 0 s ∧
    (s.take j = List.replicate j 0 →
      (encodeStep mul gen s j).take (j+1) = List.replicate (j+1) 0) := by
  have hglen : 1 ≤ gen.length := by
    cases gen with
    | nil => exact absurd rfl hgne
    | cons a l => simp
  have hjlt : j < s.length := by omega
  have hcoefeq : s.getD j 0 = s[j] := List.getD_eq_getElem s 0 hjlt
  have hcoef_lt : s.getD j 0 < 2 ^ w := by
    rw [hcoefeq]
    exact hel _ (List.getElem_mem hjlt)
  have hw0 : (0:Nat) < 2 ^ w := Nat.pos_pow_of_pos w (by omega)
  by_cases h0 : s.getD j 0 = 0
  · have hstep : encodeStep mul gen s j = s := by
      unfold encodeStep
      rw [if_neg (fun hc => hc h0)]
    rw [hstep]
    refine ⟨rfl, hel, rfl, ?_⟩
    intro htake
    rw [List.take_succ, htake, List.replicate_succ' j 0]
    congr 1
    rw [List.getElem?_eq_getElem hjlt]
    rw [← hcoefeq, h0]
    rfl
  · have hstep : encodeStep mul gen s j =
        s.take j ++ xorScaledM mul (s.getD j 0) gen (s.drop j) := by
      unfold encodeStep
      rw [if_pos h0]
    have hdroplen : gen.length ≤ (s.drop j).length := by
      simp only [List.length_drop]
      omega
    have hdropel : ∀ x ∈ s.drop j, x < 2 ^ w :=
      fun x hx => hel x (List.mem_of_mem_drop hx)
    have htakeel : ∀ x ∈ s.take j, x < 2 ^ w :=
      fun x hx => hel x (List.mem_of_mem_take hx)
    have hxlen : (xorScaledM mul (s.getD j 0) gen (s.drop j)).length =
        (s.drop j).length := xorScaledM_length mul _ gen _ hdroplen
    refine ⟨?_, ?_, ?_, ?_⟩
    · rw [hstep]
      simp only [List.length_append, List.length_take, hxlen, List.length_drop]
      omega
    · rw [hstep]
      intro x hx
      rcases List.mem_append.mp hx with h | h
      · exact htakeel x h
      · exact xorScaledM_mem_lt mul _ w hbound gen _ hdropel x h
    · rw [hstep]
      have hsplit : polyEvalFrom mul r 0 s =
          polyEvalFrom mul r (polyEvalFrom mul r 0 (s.take j)) (s.drop j) := by
        conv_lhs => rw [← List.take_append_drop j s]
        rw [polyEvalFrom_append]
      rw [polyEvalFrom_append, hsplit]
      rw [xorScaledM_zip mul _ gen _ hdroplen]
      have hacc : polyEvalFrom mul r 0 (s.take j) =
          polyEvalFrom mul r 0 (s.take j) ^^^ 0 := by rw [Nat.xor_zero]
      rw [hacc]
      rw [polyEvalFrom_zip mul r w hbound hdistL hr (s.drop j) _
        (polyEvalFrom mul r 0 (s.take j)) 0 (by simp [hxlen]; omega)
        hdropel ?_ (polyEvalFrom_lt mul r w hbound _ 0 hw0 htakeel) hw0]
      · have hscale : polyEvalFrom mul r 0
            (gen.map (fun g => mul g (s.getD j 0))) = 0 := by
          have h := polyEvalFrom_scale mul r w hbound hone hcomm hassoc hdistL hr
            (s.getD j 0) hcoef_lt gen 0 hgel hw0
          rw [hz2, hroot, hz2] at h
          exact h
        rw [polyEvalFrom_append, hscale, polyEvalFrom_zeros mul r hz1]
        rw [Nat.xor_zero, Nat.xor_zero]
      · intro x hx
        rcases List.mem_append.mp hx with h | h
        · obtain ⟨g, _, hg⟩ := List.mem_map.mp h
          rw [← hg]
          exact hbound g _
        · rw [List.eq_of_mem_replicate h]
          exact hw0
    · intro htake
      rw [hstep]
      cases hgen : gen with
      | nil => exact absurd hgen hgne
      | cons g0 gtail =>
        have hg0 : g0 = 1 := by
          have := hg1
          rw [hgen] at this
          simpa using this
        have hdropc : s.drop j = s.getD j 0 :: s.drop (j+1) := by
          rw [List.drop_eq_getElem_cons hjlt, hcoefeq]
        rw [hdropc, hg0, xorScaledM_head mul w _ hone hcoef_lt]
        have hjtl : (s.take j).length = j := by
          simp only [List.length_take]
          omega
        rw [List.replicate_succ' j 0, ← htake]
        conv_lhs => rw [show j + 1 = (s.take j).length + 1 from by omega]
        rw [List.take_append 1]
        congr 1

/-- Folding the encode step over indices j..j+n preserves length, bounds and
root evaluations, and extends the zero prefix across the processed range. -/
theorem encodeLoop_go (mul : Nat → Nat → Nat) (w : Nat)
    (hz1 : ∀ y, mul 0 y = 0) (hz2 : ∀ x, mul x 0 = 0)
    (hone : ∀ y, y < 2 ^ w → mul 1 y = y)
    (hcomm : ∀ x y, x < 2 ^ w → y < 2 ^ w → mul x y = mul y x)
    (hassoc : ∀ x y z, x < 2 ^ w → y < 2 ^ w → z < 2 ^ w →
      mul (mul x y) z = mul x (mul y z))
    (hdistL : ∀ x y z, x < 2 ^ w → y < 2 ^ w → z < 2 ^ w →
      mul (x ^^^ y) z = mul x z ^^^ mul y z)
    (hbound : ∀ x y, mul x y < 2 ^ w)
    (gen : List Nat) (hg1 : gen.getD 0 0 = 1) (hgne : gen ≠ [])
    (hgel : ∀ x ∈ gen, x < 2 ^ w)
    (r : Nat) (hr : r < 2 ^ w) (hroot : polyEvalFrom mul r 0 gen = 0) :
    ∀ (n j : Nat) (s : List Nat), j + n + gen.length ≤ s.length + 1 →
    (∀ x ∈ s, x < 2 ^ w) →
    (((List.range' j n).foldl (encodeStep mul gen) s).length = s.length ∧
     (∀ x ∈ (List.range' j n).foldl (encodeStep mul gen) s, x < 2 ^ w) ∧
     polyEvalFrom mul r 0 ((List.range' j n).foldl (encodeStep mul gen) s) =
       polyEvalFrom mul r 0 s ∧
     (s.take j = List.replicate j 0 →
       ((List.range' j n).foldl (encodeStep mul gen) s).take (j+n) =
         List.replicate (j+n) 0)) := by
  intro n
  induction n with
  | zero =>
    intro j s _ hel
    exact ⟨rfl, hel, rfl, fun h => h⟩
  | succ n ih =>
    intro j s hlen hel
    have hglen : 1 ≤ gen.length := by
      cases gen with
      | nil => exact absurd rfl hgne
      | cons a l => simp
    have hj : j + gen.length ≤ s.length := by omega
    obtain ⟨A1, B1, C1, D1⟩ := encodeStep_spec mul w hz1 hz2 hone hcomm hassoc
      hdistL hbound gen hg1 hgne hgel r hr hroot s j hj hel
    rw [show List.range' j (n+1) = j :: List.range' (j+1) n from rfl]
    simp only [List.foldl_cons]
    obtain ⟨A2, B2, C2, D2⟩ := ih (j+1) (encodeStep mul gen s j)
      (by omega) B1
    refine ⟨by rw [A2, A1], B2, by rw [C2, C1], ?_⟩
    intro htake
    have h1 := D2 (D1 htake)
    rw [show j + (n+1) = (j+1) + n from by omega]
    exact h1

/-- The encoder appends pad symbols that make the whole output evaluate to
zero at every root of the generator polynomial. -/
theorem encodeLoop_spec (mul : Nat → Nat → Nat) (w : Nat)
    (hz1 : ∀ y, mul 0 y = 0) (hz2 : ∀ x, mul x 0 = 0)
    (hone : ∀ y, y < 2 ^ w → mul 1 y = y)
    (hcomm : ∀ x y, x < 2 ^ w → y < 2 ^ w → mul x y = mul y x)
    (hassoc : ∀ x y z, x < 2 ^ w → y < 2 ^ w → z < 2 ^ w →
      mul (mul x y) z = mul x (mul y z))
    (hdistL : ∀ x y z, x < 2 ^ w → y < 2 ^ w → z < 2 ^ w →
      mul (x ^^^ y) z = mul x z ^^^ mul y z)
    (hbound : ∀ x y, mul x y < 2 ^ w)
    (gen : List Nat) (hg1 : gen.getD 0 0 = 1) (hgne : gen ≠ [])
    (hgel : ∀ x ∈ gen, x < 2 ^ w)
    (r : Nat) (hr : r < 2 ^ w) (hroot : polyEvalFrom mul r 0 gen = 0)
    (msg : List Nat) (hm : ∀ x ∈ msg, x < 2 ^ w)
    (pad : Nat) (hpad : gen.length ≤ pad + 1) :
    (encodeLoop mul gen msg pad).length = msg.length + pad ∧
    (∀ x ∈ encodeLoop mul gen msg pad, x < 2 ^ w) ∧
    polyEvalFrom mul r 0
      (msg ++ (encodeLoop mul gen msg pad).drop msg.length) = 0 := by
  have hw0 : (0:Nat) < 2 ^ w := Nat.pos_pow_of_pos w (by omega)
  have hs0el : ∀ x ∈ msg ++ List.replicate pad 0, x < 2 ^ w := by
    intro x hx
    rcases List.mem_append.mp hx with h | h
    · exact hm x h
    · rw [List.eq_of_mem_replicate h]
      exact hw0
  have hs0len : (msg ++ List.replicate pad 0).length = msg.length + pad := by
    simp
  have hG := encodeLoop_go mul w hz1 hz2 hone hcomm hassoc hdistL hbound gen
    hg1 hgne hgel r hr hroot msg.length 0 (msg ++ List.replicate pad 0)
    (by omega) hs0el
  rw [show encodeLoop mul gen msg pad =
      (List.range' 0 msg.length).foldl (encodeStep mul gen)
        (msg ++ List.replicate pad 0) from by
    unfold encodeLoop
    rw [List.range_eq_range']]
  obtain ⟨A, B, C, D⟩ := hG
  have htake0 : (msg ++ List.replicate pad 0).take 0 = List.replicate 0 0 := rfl
  have hzero := D htake0
  rw [Nat.zero_add] at hzero
  set F := (List.range' 0 msg.length).foldl (encodeStep mul gen)
    (msg ++ List.replicate pad 0) with hF
  have hFlen : F.length = msg.length + pad := by rw [A, hs0len]
  refine ⟨hFlen, B, ?_⟩
  have hdlen : (F.drop msg.length).length = pad := by
    simp only [List.length_drop, hFlen]
    omega
  have hdel : ∀ x ∈ F.drop msg.length, x < 2 ^ w :=
    fun x hx => B x (List.mem_of_mem_drop hx)
  have hEmsg : polyEvalFrom mul r 0 msg < 2 ^ w :=
    polyEvalFrom_lt mul r w hbound msg 0 hw0 hm
  have eqF : polyEvalFrom mul r 0 F = polyEvalFrom mul r 0 (F.drop msg.length) := by
    conv_lhs => rw [← List.take_append_drop msg.length F, hzero]
    rw [polyEvalFrom_append, polyEvalFrom_zeros mul r hz1]
  have eqS0 : polyEvalFrom mul r 0 (msg ++ List.replicate pad 0) =
      polyEvalFrom mul r (polyEvalFrom mul r 0 msg) (List.replicate pad 0) := by
    rw [polyEvalFrom_append]
  rw [polyEvalFrom_append]
  have hzip : List.zipWith (fun a b => a ^^^ b) (F.drop msg.length)
      (List.replicate pad 0) = F.drop msg.length := by
    rw [show List.replicate pad (0:Nat) =
        List.replicate (F.drop msg.length).length 0 from by rw [hdlen]]
    exact zipXor_zero_right (F.drop msg.length)
  have hkey := polyEvalFrom_zip mul r w hbound hdistL hr (F.drop msg.length)
    (List.replicate pad 0) 0 (polyEvalFrom mul r 0 msg)
    (by rw [hdlen]; simp) hdel
    (by
      intro x hx
      rw [List.eq_of_mem_replicate hx]
      exact hw0)
    hw0 hEmsg
  rw [hzip, Nat.zero_xor] at hkey
  rw [hkey, ← eqF, ← eqS0, C, Nat.xor_self]

/-! ### reedsolo.py: the 8-bit Reed-Solomon codec

RSCodec calls init_gf() with its defaults prim=0x11D, generator=2,
field_size=256 (reedsolo.py, lines 29-44 and 138-140), so the tables below
are the ones every encode and decode uses. -/

namespace Reedsolo

/-- Model of one iteration of the init_gf table loop (reedsolo.py,
lines 40-41): x <<= 1; if x & field_size: x ^= prim. -/
def gfStep (x : Nat) : Nat :=
  if (x <<< 1) &&& 256 ≠ 0 then (x <<< 1) ^^^ 0x11D else x <<< 1

def gfPowers : Nat → Nat → List Nat
  | 0, _ => []
  | n+1, x => x :: gfPowers n (gfStep x)

/-- Lower half of GF_EXP as filled by the loop: GF_EXP[i] = x_i. -/
def expLow : List Nat := gfPowers 255 1

/-- Model of GF_EXP (size 510): the loop at reedsolo.py lines 43-44 copies
the lower half into the upper half. -/
def GF_EXP : List Nat := expLow ++ expLow

/-- Model of GF_LOG (size 256): the loop writes GF_LOG[x_i] = i. -/
def GF_LOG : List Nat :=
  (List.range 255).foldl (fun tbl i => tbl.set (expLow.getD i 0) i)
    (List.replicate 256 0)

/-- Model of gf_mul (reedsolo.py, lines 50-53). -/
def gf_mul (x y : Nat) : Nat :=
  if x = 0 ∨ y = 0 then 0
  else GF_EXP.getD ((GF_LOG.getD x 0 + GF_LOG.getD y 0) % 255) 0

/-- Reference powers of the generator 2 in the reduced field. -/
def alphaPow : Nat → Nat
  | 0 => 1
  | n+1 => rmul 285 2 (alphaPow n)

theorem gfPowers_length : ∀ n x, (gfPowers n x).length = n := by
  intro n
  induction n with
  | zero => intro x; rfl
  | succ m ih =>
    intro x
    simp only [gfPowers, List.length_cons, ih]

theorem expLow_length : expLow.length = 255 := gfPowers_length 255 1

theorem tblExpRange : ∀ i, i < 255 → 0 < expLow.getD i 0 ∧ expLow.getD i 0 < 256 := by
  decide

theorem tblLogExp : ∀ i, i < 255 → GF_LOG.getD (expLow.getD i 0) 0 = i := by
  decide

theorem tblExpLogAux : ∀ x, x < 255 → expLow.getD (GF_LOG.getD (x+1) 0) 0 = x + 1 := by
  decide

theorem tblExpLog : ∀ x, 0 < x → x < 256 → expLow.getD (GF_LOG.getD x 0) 0 = x := by
  intro x h1 h2
  have := tblExpLogAux (x - 1) (by omega)
  rw [show x - 1 + 1 = x from by omega] at this
  exact this

theorem tblLogRange : ∀ x, x < 256 → GF_LOG.getD x 0 < 255 := by
  decide

theorem tblExpPow : ∀ i, i < 255 → expLow.getD i 0 = alphaPow i := by
  decide

theorem alphaPow_period : alphaPow 255 = 1 := by decide

theorem pow_bitLen_285 : 2 ^ (bitLen 285 - 1) = 256 := by decide

theorem alphaPow_lt : ∀ n, alphaPow n < 256 := by
  intro n
  cases n with
  | zero => decide
  | succ m =>
    have h := rmul_lt 285 2 (alphaPow m) (by omega)
    rw [pow_bitLen_285] at h
    exact h

theorem alphaPow_add : ∀ a b, alphaPow (a + b) = rmul 285 (alphaPow a) (alphaPow b) := by
  intro a
  induction a with
  | zero =>
    intro b
    rw [Nat.zero_add]
    have h := rmul_one_left 285 (alphaPow b) (by omega)
      (by rw [pow_bitLen_285]; exact alphaPow_lt b)
    show alphaPow b = rmul 285 1 (alphaPow b)
    exact h.symm
  | succ m ih =>
    intro b
    rw [show m + 1 + b = (m + b) + 1 from by omega]
    show rmul 285 2 (alphaPow (m + b)) = rmul 285 (rmul 285 2 (alphaPow m)) (alphaPow b)
    rw [ih b, rmul_assoc 285 2 (alphaPow m) (alphaPow b) (by omega)]

theorem alphaPow_mod : ∀ n, alphaPow n = alphaPow (n % 255) := by
  intro n
  induction n using Nat.strong_induction_on with
  | _ n ih =>
    by_cases h : n < 255
    · rw [Nat.mod_eq_of_lt h]
    · have hs : n = 255 + (n - 255) := by omega
      rw [hs, alphaPow_add, alphaPow_period]
      have h1 := rmul_one_left 285 (alphaPow (n - 255)) (by omega)
        (by rw [pow_bitLen_285]; exact alphaPow_lt (n - 255))
      rw [h1, ih (n - 255) (by omega)]
      congr 1
      omega

theorem gf_mul_eq_rmul : ∀ x y, x < 256 → y < 256 → gf_mul x y = rmul 285 x y := by
  intro x y hx hy
  by_cases hx0 : x = 0
  · subst hx0
    rw [show gf_mul 0 y = 0 from by unfold gf_mul; rw [if_pos (Or.inl rfl)],
        rmul_zero_left]
  · by_cases hy0 : y = 0
    · subst hy0
      rw [show gf_mul x 0 = 0 from by unfold gf_mul; rw [if_pos (Or.inr rfl)],
          rmul_zero_right]
    · unfold gf_mul
      rw [if_neg (by push_neg; exact ⟨hx0, hy0⟩)]
      have hlx := tblLogRange x hx
      have hly := tblLogRange y hy
      have hidx : (GF_LOG.getD x 0 + GF_LOG.getD y 0) % 255 < 255 :=
        Nat.mod_lt _ (by omega)
      have hsplit : GF_EXP.getD ((GF_LOG.getD x 0 + GF_LOG.getD y 0) % 255) 0 =
          expLow.getD ((GF_LOG.getD x 0 + GF_LOG.getD y 0) % 255) 0 := by
        unfold GF_EXP
        exact List.getD_append expLow expLow 0 _ (by rw [expLow_length]; exact hidx)
      rw [hsplit, tblExpPow _ hidx, ← alphaPow_mod, alphaPow_add]
      have ex : alphaPow (GF_LOG.getD x 0) = x := by
        rw [← tblExpPow _ hlx]
        exact tblExpLog x (by omega) hx
      have ey : alphaPow (GF_LOG.getD y 0) = y := by
        rw [← tblExpPow _ hly]
        exact tblExpLog y (by omega) hy
      rw [ex, ey]

theorem gf_mul_zero_left : ∀ y, gf_mul 0 y = 0 := by
  intro y
  unfold gf_mul
  rw [if_pos (Or.inl rfl)]

theorem gf_mul_zero_right : ∀ x, gf_mul x 0 = 0 := by
  intro x
  unfold gf_mul
  rw [if_pos (Or.inr rfl)]

theorem gf_mul_lt : ∀ x y, gf_mul x y < 2 ^ 8 := by
  intro x y
  unfold gf_mul
  split
  · exact Nat.pos_pow_of_pos 8 (by omega)
  · have hidx : (GF_LOG.getD x 0 + GF_LOG.getD y 0) % 255 < 255 :=
      Nat.mod_lt _ (by omega)
    have hsplit : GF_EXP.getD ((GF_LOG.getD x 0 + GF_LOG.getD y 0) % 255) 0 =
        expLow.getD ((GF_LOG.getD x 0 + GF_LOG.getD y 0) % 255) 0 := by
      unfold GF_EXP
      exact List.getD_append expLow expLow 0 _ (by rw [expLow_length]; exact hidx)
    rw [hsplit]
    exact (tblExpRange _ hidx).2

theorem gf_mul_one_left : ∀ y, y < 2 ^ 8 → gf_mul 1 y = y := by
  intro y hy
  by_cases hy0 : y = 0
  · subst hy0
    exact gf_mul_zero_right 1
  · rw [gf_mul_eq_rmul 1 y (by omega) hy]
    exact rmul_one_left 285 y (by omega) (by rw [pow_bitLen_285]; exact hy)

theorem gf_mul_comm : ∀ x y, x < 2 ^ 8 → y < 2 ^ 8 → gf_mul x y = gf_mul y x := by
  intro x y hx hy
  rw [gf_mul_eq_rmul x y hx hy, gf_mul_eq_rmul y x hy hx, rmul_comm]

theorem gf_mul_assoc : ∀ x y z, x < 2 ^ 8 → y < 2 ^ 8 → z < 2 ^ 8 →
    gf_mul (gf_mul x y) z = gf_mul x (gf_mul y z) := by
  intro x y z hx hy hz
  rw [gf_mul_eq_rmul (gf_mul x y) z (gf_mul_lt x y) hz,
      gf_mul_eq_rmul x y hx hy,
      gf_mul_eq_rmul x (gf_mul y z) hx (gf_mul_lt y z),
      gf_mul_eq_rmul y z hy hz]
  exact rmul_assoc 285 x y z (by omega)

theorem gf_mul_distribL : ∀ x y z, x < 2 ^ 8 → y < 2 ^ 8 → z < 2 ^ 8 →
    gf_mul (x ^^^ y) z = gf_mul x z ^^^ gf_mul y z := by
  intro x y z hx hy hz
  rw [gf_mul_eq_rmul (x ^^^ y) z (Nat.xor_lt_two_pow hx hy) hz,
      gf_mul_eq_rmul x z hx hz, gf_mul_eq_rmul y z hy hz]
  exact rmul_distrib_left 285 x y z (by omega)

/-- Model of gf_poly_mul (reedsolo.py, lines 69-75): result array of zeros,
result[i+j] ^= gf_mul(p[i], q[j]) over the double loop. -/
def gf_poly_mul (p q : List Nat) : List Nat :=
  (List.range p.length).foldl (fun res i =>
    (List.range q.length).foldl (fun res2 j =>
      res2.set (i+j) (res2.getD (i+j) 0 ^^^ gf_mul (p.getD i 0) (q.getD j 0))) res)
    (List.replicate (p.length + q.length - 1) 0)

/-- Model of rs_generator_poly (reedsolo.py, lines 78-83): product of the
binomials [1, GF_EXP[i]] for i below nsym. -/
def rs_generator_poly (nsym : Nat) : List Nat :=
  (List.range nsym).foldl (fun g i => gf_poly_mul g [1, GF_EXP.getD i 0]) [1]

/-- Modelled from the spec: gf_poly_eval is called by rs_calc_syndromes
(reedsolo.py, line 99) but is absent from src/reedsolo.py; spec 4.3 says the
syndromes evaluate the received polynomial at the roots and spec 4.1 orders
coefficients most significant first, which is Horner evaluation. -/
def gf_poly_eval (p : List Nat) (x : Nat) : Nat := polyEvalFrom gf_mul x 0 p

/-- Model of rs_encode_msg (reedsolo.py, lines 85-94): synthetic division
of msg extended by nsym zeros, returning msg plus the last nsym symbols. -/
def rs_encode_msg (msg : List Nat) (nsym : Nat) : List Nat :=
  msg ++ (encodeLoop gf_mul (rs_generator_poly nsym) msg nsym).drop
    ((encodeLoop gf_mul (rs_generator_poly nsym) msg nsym).length - nsym)

/-- Model of rs_calc_syndromes (reedsolo.py, lines 97-99). -/
def rs_calc_syndromes (msg : List Nat) (nsym : Nat) : List Nat :=
  (List.range nsym).map (fun i => gf_poly_eval msg (GF_EXP.getD i 0))

/-- Model of rs_correct_msg (reedsolo.py, lines 118-132).  When max(synd)
is 0 the message and parity are returned unchanged.  The nonzero branch is
modelled as failure: in src it calls rs_find_error_locator, whose first
nonzero discrepancy reaches gf_poly_scale, and then rs_find_errors and
rs_correct_errata, none of which are defined anywhere in the repository, so
in Python that branch raises NameError before returning anything. -/
def rs_correct_msg (msg_in : List Nat) (nsym : Nat) : Option (List Nat × List Nat) :=
  if (rs_calc_syndromes msg_in nsym).foldl max 0 = 0 then
    some (msg_in.take (msg_in.length - nsym), msg_in.drop (msg_in.length - nsym))
  else none

theorem gen8_length : (rs_generator_poly 8).length = 9 := by decide

theorem gen8_head : (rs_generator_poly 8).getD 0 0 = 1 := by decide

theorem gen8_ne : rs_generator_poly 8 ≠ [] := by decide

theorem gen8_el : ∀ x ∈ rs_generator_poly 8, x < 2 ^ 8 := by decide

theorem gen8_roots : ∀ i, i < 8 → GF_EXP.getD i 0 < 2 ^ 8 ∧
    polyEvalFrom gf_mul (GF_EXP.getD i 0) 0 (rs_generator_poly 8) = 0 := by
  decide

theorem foldl_max_replicate_zero : ∀ n, (List.replicate n 0).foldl max 0 = 0 := by
  intro n
  induction n with
  | zero => rfl
  | succ m ih =>
    rw [List.replicate_succ, List.foldl_cons]
    exact ih

/-- Round trip of the 8-bit codec: decoding a noiseless encoding returns
the message and parity split, with no error signalled. -/
theorem rs8_roundtrip (msg : List Nat) (hm : ∀ x ∈ msg, x < 256)
    (hlen : msg.length + 8 ≤ 255) :
    rs_correct_msg (rs_encode_msg msg 8) 8 =
      some (msg, (rs_encode_msg msg 8).drop msg.length) := by
  have hm8 : ∀ x ∈ msg, x < 2 ^ 8 := by
    intro x hx
    have := hm x hx
    omega
  have hL := encodeLoop_spec gf_mul 8 gf_mul_zero_left gf_mul_zero_right
    gf_mul_one_left gf_mul_comm gf_mul_assoc gf_mul_distribL gf_mul_lt
    (rs_generator_poly 8) gen8_head gen8_ne gen8_el
    (GF_EXP.getD 0 0) (gen8_roots 0 (by omega)).1 (gen8_roots 0 (by omega)).2
    msg hm8 8 (by rw [gen8_length])
  obtain ⟨hOlen, hOel, _⟩ := hL
  set out := encodeLoop gf_mul (rs_generator_poly 8) msg 8 with hout
  have hdropidx : out.length - 8 = msg.length := by omega
  have henc : rs_encode_msg msg 8 = msg ++ out.drop msg.length := by
    unfold rs_encode_msg
    rw [← hout, hdropidx]
  have hdlen : (out.drop msg.length).length = 8 := by
    simp only [List.length_drop, hOlen]
    omega
  have henclen : (rs_encode_msg msg 8).length = msg.length + 8 := by
    rw [henc]
    simp only [List.length_append, hdlen]
  have hsynd0 : ∀ i, i < 8 →
      gf_poly_eval (rs_encode_msg msg 8) (GF_EXP.getD i 0) = 0 := by
    intro i hi
    have hLi := encodeLoop_spec gf_mul 8 gf_mul_zero_left gf_mul_zero_right
      gf_mul_one_left gf_mul_comm gf_mul_assoc gf_mul_distribL gf_mul_lt
      (rs_generator_poly 8) gen8_head gen8_ne gen8_el
      (GF_EXP.getD i 0) (gen8_roots i hi).1 (gen8_roots i hi).2
      msg hm8 8 (by rw [gen8_length])
    rw [henc]
    unfold gf_poly_eval
    rw [← hout] at hLi
    exact hLi.2.2
  have hmap : rs_calc_syndromes (rs_encode_msg msg 8) 8 = List.replicate 8 0 := by
    unfold rs_calc_syndromes
    apply List.eq_replicate_of_mem
    intro b hb
    obtain ⟨i, hi, hbi⟩ := List.mem_map.mp hb
    rw [← hbi]
    exact hsynd0 i (List.mem_range.mp hi)
  unfold rs_correct_msg
  rw [hmap, if_pos (foldl_max_replicate_zero 8)]
  rw [henclen]
  rw [show msg.length + 8 - 8 = msg.length from by omega]
  rw [henc, List.take_left]

end Reedsolo

/-! ### reedsolo6.py: the 6-bit Reed-Solomon codec

The GF(2^6) instantiation the repository configures for this module uses
prim=0x43, generator=2, field_exp=6 (rs6.py, lines 17-26), giving
FIELD_SIZE = 63, a 126-entry exponent table and a 64-entry log table
(reedsolo6.py, lines 28-42). -/

namespace Reedsolo6

/-- Model of gf_multiply_no_lut (reedsolo6.py, lines 54-64): the running x
is shifted and reduced after each consumed bit of y; fuel y is enough
because y halves every step. -/
def gf_multiply_no_lut_go : Nat → Nat → Nat → Nat → Nat → Nat
  | 0, _, _, _, _ => 0
  | fuel+1, x, y, prim, fc =>
      if y = 0 then 0
      else
        (if y % 2 = 1 then x else 0) ^^^
          gf_multiply_no_lut_go fuel
            (if 0 < prim ∧ (x <<< 1) &&& fc ≠ 0 then (x <<< 1) ^^^ prim else x <<< 1)
            (y / 2) prim fc

def gf_multiply_no_lut (x y prim fc : Nat) : Nat :=
  gf_multiply_no_lut_go y x y prim fc

/-- Model of one iteration of the init_tables loop (reedsolo6.py, line 39):
x = gf_multiply_no_lut(x, generator, prim, FIELD_SIZE + 1). -/
def gfStep (x : Nat) : Nat := gf_multiply_no_lut x 2 0x43 64

def gfPowers : Nat → Nat → List Nat
  | 0, _ => []
  | n+1, x => x :: gfPowers n (gfStep x)

/-- Lower half of GF_EXP as filled by the init_tables loop. -/
def expLow : List Nat := gfPowers 63 1

/-- Model of GF_EXP (size 126): upper half duplicates the lower
(reedsolo6.py, lines 41-42). -/
def GF_EXP : List Nat := expLow ++ expLow

/-- Model of GF_LOG (size 64): the loop writes GF_LOG[x_i] = i. -/
def GF_LOG : List Nat :=
  (List.range 63).foldl (fun tbl i => tbl.set (expLow.getD i 0) i)
    (List.replicate 64 0)

/-- Model of gf_multiply (reedsolo6.py, lines 48-52). -/
def gf_multiply (x y : Nat) : Nat :=
  if x = 0 ∨ y = 0 then 0
  else GF_EXP.getD ((GF_LOG.getD x 0 + GF_LOG.getD y 0) % 63) 0

/-- Reference powers of the generator 2 in the reduced field. -/
def alphaPow : Nat → Nat
  | 0 => 1
  | n+1 => rmul 67 2 (alphaPow n)

theorem gfPowers6_length : ∀ n x, (gfPowers n x).length = n := by
  intro n
  induction n with
  | zero => intro x; rfl
  | succ m ih =>
    intro x
    simp only [gfPowers, List.length_cons, ih]

theorem expLow6_length : expLow.length = 63 := gfPowers6_length 63 1

theorem tblExpRange6 : ∀ i, i < 63 → 0 < expLow.getD i 0 ∧ expLow.getD i 0 < 64 := by
  decide

theorem tblLogExp6 : ∀ i, i < 63 → GF_LOG.getD (expLow.getD i 0) 0 = i := by
  decide

theorem tblExpLogAux6 : ∀ x, x < 63 → expLow.getD (GF_LOG.getD (x+1) 0) 0 = x + 1 := by
  decide

theorem tblExpLog6 : ∀ x, 0 < x → x < 64 → expLow.getD (GF_LOG.getD x 0) 0 = x := by
  intro x h1 h2
  have := tblExpLogAux6 (x - 1) (by omega)
  rw [show x - 1 + 1 = x from by omega] at this
  exact this

theorem tblLogRange6 : ∀ x, x < 64 → GF_LOG.getD x 0 < 63 := by
  decide

theorem tblExpPow6 : ∀ i, i < 63 → expLow.getD i 0 = alphaPow i := by
  decide

theorem alphaPow6_period : alphaPow 63 = 1 := by decide

theorem pow_bitLen_67 : 2 ^ (bitLen 67 - 1) = 64 := by decide

theorem alphaPow6_lt : ∀ n, alphaPow n < 64 := by
  intro n
  cases n with
  | zero => decide
  | succ m =>
    have h := rmul_lt 67 2 (alphaPow m) (by omega)
    rw [pow_bitLen_67] at h
    exact h

theorem alphaPow6_add : ∀ a b, alphaPow (a + b) = rmul 67 (alphaPow a) (alphaPow b) := by
  intro a
  induction a with
  | zero =>
    intro b
    rw [Nat.zero_add]
    have h := rmul_one_left 67 (alphaPow b) (by omega)
      (by rw [pow_bitLen_67]; exact alphaPow6_lt b)
    show alphaPow b = rmul 67 1 (alphaPow b)
    exact h.symm
  | succ m ih =>
    intro b
    rw [show m + 1 + b = (m + b) + 1 from by omega]
    show rmul 67 2 (alphaPow (m + b)) = rmul 67 (rmul 67 2 (alphaPow m)) (alphaPow b)
    rw [ih b, rmul_assoc 67 2 (alphaPow m) (alphaPow b) (by omega)]

theorem alphaPow6_mod : ∀ n, alphaPow n = alphaPow (n % 63) := by
  intro n
  induction n using Nat.strong_induction_on with
  | _ n ih =>
    by_cases h : n < 63
    · rw [Nat.mod_eq_of_lt h]
    · have hs : n = 63 + (n - 63) := by omega
      rw [hs, alphaPow6_add, alphaPow6_period]
      have h1 := rmul_one_left 67 (alphaPow (n - 63)) (by omega)
        (by rw [pow_bitLen_67]; exact alphaPow6_lt (n - 63))
      rw [h1, ih (n - 63) (by omega)]
      congr 1
      omega

theorem gf_multiply_eq_rmul : ∀ x y, x < 64 → y < 64 →
    gf_multiply x y = rmul 67 x y := by
  intro x y hx hy
  by_cases hx0 : x = 0
  · subst hx0
    rw [show gf_multiply 0 y = 0 from by unfold gf_multiply; rw [if_pos (Or.inl rfl)],
        rmul_zero_left]
  · by_cases hy0 : y = 0
    · subst hy0
      rw [show gf_multiply x 0 = 0 from by unfold gf_multiply; rw [if_pos (Or.inr rfl)],
          rmul_zero_right]
    · unfold gf_multiply
      rw [if_neg (by push_neg; exact ⟨hx0, hy0⟩)]
      have hlx := tblLogRange6 x hx
      have hly := tblLogRange6 y hy
      have hidx : (GF_LOG.getD x 0 + GF_LOG.getD y 0) % 63 < 63 :=
        Nat.mod_lt _ (by omega)
      have hsplit : GF_EXP.getD ((GF_LOG.getD x 0 + GF_LOG.getD y 0) % 63) 0 =
          expLow.getD ((GF_LOG.getD x 0 + GF_LOG.getD y 0) % 63) 0 := by
        unfold GF_EXP
        exact List.getD_append expLow expLow 0 _ (by rw [expLow6_length]; exact hidx)
      rw [hsplit, tblExpPow6 _ hidx, ← alphaPow6_mod, alphaPow6_add]
      have ex : alphaPow (GF_LOG.getD x 0) = x := by
        rw [← tblExpPow6 _ hlx]
        exact tblExpLog6 x (by omega) hx
      have ey : alphaPow (GF_LOG.getD y 0) = y := by
        rw [← tblExpPow6 _ hly]
        exact tblExpLog6 y (by omega) hy
      rw [ex, ey]

theorem gf_multiply_zero_left : ∀ y, gf_multiply 0 y = 0 := by
  intro y
  unfold gf_multiply
  rw [if_pos (Or.inl rfl)]

theorem gf_multiply_zero_right : ∀ x, gf_multiply x 0 = 0 := by
  intro x
  unfold gf_multiply
  rw [if_pos (Or.inr rfl)]

theorem gf_multiply_lt : ∀ x y, gf_multiply x y < 2 ^ 6 := by
  intro x y
  unfold gf_multiply
  split
  · exact Nat.pos_pow_of_pos 6 (by omega)
  · have hidx : (GF_LOG.getD x 0 + GF_LOG.getD y 0) % 63 < 63 :=
      Nat.mod_lt _ (by omega)
    have hsplit : GF_EXP.getD ((GF_LOG.getD x 0 + GF_LOG.getD y 0) % 63) 0 =
        expLow.getD ((GF_LOG.getD x 0 + GF_LOG.getD y 0) % 63) 0 := by
      unfold GF_EXP
      exact List.getD_append expLow expLow 0 _ (by rw [expLow6_length]; exact hidx)
    rw [hsplit]
    exact (tblExpRange6 _ hidx).2

theorem gf_multiply_one_left : ∀ y, y < 2 ^ 6 → gf_multiply 1 y = y := by
  intro y hy
  by_cases hy0 : y = 0
  · subst hy0
    exact gf_multiply_zero_right 1
  · rw [gf_multiply_eq_rmul 1 y (by omega) hy]
    exact rmul_one_left 67 y (by omega) (by rw [pow_bitLen_67]; exact hy)

theorem gf_multiply_comm : ∀ x y, x < 2 ^ 6 → y < 2 ^ 6 →
    gf_multiply x y = gf_multiply y x := by
  intro x y hx hy
  rw [gf_multiply_eq_rmul x y hx hy, gf_multiply_eq_rmul y x hy hx, rmul_comm]

theorem gf_multiply_assoc : ∀ x y z, x < 2 ^ 6 → y < 2 ^ 6 → z < 2 ^ 6 →
    gf_multiply (gf_multiply x y) z = gf_multiply x (gf_multiply y z) := by
  intro x y z hx hy hz
  rw [gf_multiply_eq_rmul (gf_multiply x y) z (gf_multiply_lt x y) hz,
      gf_multiply_eq_rmul x y hx hy,
      gf_multiply_eq_rmul x (gf_multiply y z) hx (gf_multiply_lt y z),
      gf_multiply_eq_rmul y z hy hz]
  exact rmul_assoc 67 x y z (by omega)

theorem gf_multiply_distribL : ∀ x y z, x < 2 ^ 6 → y < 2 ^ 6 → z < 2 ^ 6 →
    gf_multiply (x ^^^ y) z = gf_multiply x z ^^^ gf_multiply y z := by
  intro x y z hx hy hz
  rw [gf_multiply_eq_rmul (x ^^^ y) z (Nat.xor_lt_two_pow hx hy) hz,
      gf_multiply_eq_rmul x z hx hz, gf_multiply_eq_rmul y z hy hz]
  exact rmul_distrib_left 67 x y z (by omega)

/-- Modelled from the spec: field exponentiation generator^i (spec 4.3 uses
generator powers for both the generator polynomial and the syndromes);
gf_exp is called at reedsolo6.py lines 88 and 106 but is absent from
src/reedsolo6.py. -/
def gf_exp (x : Nat) : Nat → Nat
  | 0 => 1
  | n+1 => gf_multiply x (gf_exp x n)

/-- Model of gf_poly_multiply (reedsolo6.py, lines 76-82): double loop with
j outer, accumulating xors into a zero-initialized result array. -/
def gf_poly_multiply (p q : List Nat) : List Nat :=
  (List.range q.length).foldl (fun res j =>
    (List.range p.length).foldl (fun res2 i =>
      res2.set (i+j) (res2.getD (i+j) 0 ^^^ gf_multiply (p.getD i 0) (q.getD j 0))) res)
    (List.replicate (p.length + q.length - 1) 0)

/-- Model of rs_generator_poly (reedsolo6.py, lines 84-89) with the
configured generator 2. -/
def rs_generator_poly (nsym : Nat) : List Nat :=
  (List.range nsym).foldl (fun g i => gf_poly_multiply g [1, gf_exp 2 i]) [1]

/-- Modelled from the spec: Horner evaluation of the received polynomial,
most significant coefficient first (spec 4.1 and 4.3); gf_poly_eval is
called at reedsolo6.py line 106 but is absent from src/reedsolo6.py. -/
def gf_poly_eval (p : List Nat) (x : Nat) : Nat := polyEvalFrom gf_multiply x 0 p

/-- Model of rs_encode_msg (reedsolo6.py, lines 91-102): the message is
padded with len(gen)-1 zeros, divided synthetically, and the last
len(gen)-1 symbols are appended to the message. -/
def rs_encode_msg (msg : List Nat) (nsym : Nat) : List Nat :=
  msg ++ (encodeLoop gf_multiply (rs_generator_poly nsym) msg
      ((rs_generator_poly nsym).length - 1)).drop
    ((encodeLoop gf_multiply (rs_generator_poly nsym) msg
      ((rs_generator_poly nsym).length - 1)).length -
        ((rs_generator_poly nsym).length - 1))

/-- Model of rs_decode_msg (reedsolo6.py, lines 104-109).  All-zero
syndromes return the message and parity unchanged; the other branch raises
NotImplementedError in the source, modelled as none. -/
def rs_decode_msg (msg : List Nat) (nsym : Nat) : Option (List Nat × List Nat) :=
  if ((List.range nsym).map (fun i => gf_poly_eval msg (gf_exp 2 i))).foldl max 0 = 0
  then some (msg.take (msg.length - nsym), msg.drop (msg.length - nsym))
  else none

theorem gen10_length : (rs_generator_poly 10).length = 11 := by decide

theorem gen10_head : (rs_generator_poly 10).getD 0 0 = 1 := by decide

theorem gen10_ne : rs_generator_poly 10 ≠ [] := by decide

theorem gen10_el : ∀ x ∈ rs_generator_poly 10, x < 2 ^ 6 := by decide

theorem gen10_roots : ∀ i, i < 10 → gf_exp 2 i < 2 ^ 6 ∧
    polyEvalFrom gf_multiply (gf_exp 2 i) 0 (rs_generator_poly 10) = 0 := by
  decide

/-- Round trip of the 6-bit codec: decoding a noiseless encoding returns
the message and parity split, with no error signalled. -/
theorem rs6_roundtrip (msg : List Nat) (hm : ∀ x ∈ msg, x < 64)
    (hlen : msg.length + 10 ≤ 63) :
    rs_decode_msg (rs_encode_msg msg 10) 10 =
      some (msg, (rs_encode_msg msg 10).drop msg.length) := by
  have hm6 : ∀ x ∈ msg, x < 2 ^ 6 := by
    intro x hx
    have := hm x hx
    omega
  have hpad : (rs_generator_poly 10).length - 1 = 10 := by rw [gen10_length]
  have hL := encodeLoop_spec gf_multiply 6 gf_multiply_zero_left
    gf_multiply_zero_right gf_multiply_one_left gf_multiply_comm
    gf_multiply_assoc gf_multiply_distribL gf_multiply_lt
    (rs_generator_poly 10) gen10_head gen10_ne gen10_el
    (gf_exp 2 0) (gen10_roots 0 (by omega)).1 (gen10_roots 0 (by omega)).2
    msg hm6 ((rs_generator_poly 10).length - 1) (by omega)
  obtain ⟨hOlen, hOel, _⟩ := hL
  set out := encodeLoop gf_multiply (rs_generator_poly 10) msg
    ((rs_generator_poly 10).length - 1) with hout
  have hdropidx : out.length - ((rs_generator_poly 10).length - 1) = msg.length := by
    omega
  have henc : rs_encode_msg msg 10 = msg ++ out.drop msg.length := by
    unfold rs_encode_msg
    rw [← hout, hdropidx]
  have hdlen : (out.drop msg.length).length = 10 := by
    simp only [List.length_drop, hOlen]
    omega
  have henclen : (rs_encode_msg msg 10).length = msg.length + 10 := by
    rw [henc]
    simp only [List.length_append, hdlen]
  have hsynd0 : ∀ i, i < 10 →
      gf_poly_eval (rs_encode_msg msg 10) (gf_exp 2 i) = 0 := by
    intro i hi
    have hLi := encodeLoop_spec gf_multiply 6 gf_multiply_zero_left
      gf_multiply_zero_right gf_multiply_one_left gf_multiply_comm
      gf_multiply_assoc gf_multiply_distribL gf_multiply_lt
      (rs_generator_poly 10) gen10_head gen10_ne gen10_el
      (gf_exp 2 i) (gen10_roots i hi).1 (gen10_roots i hi).2
      msg hm6 ((rs_generator_poly 10).length - 1) (by omega)
    rw [henc]
    unfold gf_poly_eval
    rw [← hout] at hLi
    exact hLi.2.2
  have hmap : (List.range 10).map
      (fun i => gf_poly_eval (rs_encode_msg msg 10) (gf_exp 2 i)) =
      List.replicate 10 0 := by
    apply List.eq_replicate_of_mem
    intro b hb
    obtain ⟨i, hi, hbi⟩ := List.mem_map.mp hb
    rw [← hbi]
    exact hsynd0 i (List.mem_range.mp hi)
  unfold rs_decode_msg
  rw [hmap, if_pos (Reedsolo.foldl_max_replicate_zero 10)]
  rw [henclen]
  rw [show msg.length + 10 - 10 = msg.length from by omega]
  rw [henc, List.take_left]

end Reedsolo6

/-- Claim C2: for both Reed-Solomon configurations (GF(2^8) with nsym=8,
prim 0x11D, generator 2; GF(2^6) with nsym=10, prim 0x43, generator 2) and
every message of a supported length, decoding the noiseless result of
encoding returns exactly the pair (message, parity) with no error
reported. -/
theorem claim_C2 :
    (∀ msg : List Nat, (∀ x ∈ msg, x < 256) → msg.length + 8 ≤ 255 →
      Reedsolo.rs_correct_msg (Reedsolo.rs_encode_msg msg 8) 8 =
        some (msg, (Reedsolo.rs_encode_msg msg 8).drop msg.length)) ∧
    (∀ msg : List Nat, (∀ x ∈ msg, x < 64) → msg.length + 10 ≤ 63 →
      Reedsolo6.rs_decode_msg (Reedsolo6.rs_encode_msg msg 10) 10 =
        some (msg, (Reedsolo6.rs_encode_msg msg 10).drop msg.length)) :=
  ⟨Reedsolo.rs8_roundtrip, Reedsolo6.rs6_roundtrip⟩

theorem claim_C2_witness :
    Reedsolo.rs_correct_msg (Reedsolo.rs_encode_msg [1, 2, 3] 8) 8 =
      some ([1, 2, 3], (Reedsolo.rs_encode_msg [1, 2, 3] 8).drop 3) ∧
    Reedsolo6.rs_decode_msg (Reedsolo6.rs_encode_msg [1, 2, 3] 10) 10 =
      some ([1, 2, 3], (Reedsolo6.rs_encode_msg [1, 2, 3] 10).drop 3) :=
  ⟨claim_C2.1 [1, 2, 3] (by decide) (by decide),
   claim_C2.2 [1, 2, 3] (by decide) (by decide)⟩

/-! ### bitsparser.py: reverse_bits and the parsed bitstream (claim C1) -/

namespace Bits

/-- Model of one entry of the reverse_bits lookup table (bitsparser.py,
line 38): int built from the reversed 8-character binary rendering of the
byte value. -/
def revByte (i : Nat) : Nat := bitsToNat (List.reverse (natToBits 8 i))

/-- Model of reverse_bits (bitsparser.py, lines 34-39): each element of the
input array indexes the byte-value table. -/
def reverse_bits (data : List Nat) : List Nat := data.map revByte

/-- Model of the bitstream handling of Message.parse_line (bitsparser.py,
lines 103-106): the cleaned bit string becomes an array with one 0/1 value
per character, and a swapped (RAW) line maps that array through
reverse_bits. -/
def storedBitstream (swapped : Bool) (bits : List Nat) : List Nat :=
  if swapped then reverse_bits bits else bits

/-- Modelled from the spec (section 4.5 normalizeBitOrder): reverse the bit
order within each consecutive byte-aligned group of 8 bits; a trailing
group shorter than 8 bits is reversed in place. -/
def specByteGroupReverse : List Nat → List Nat
  | b0 :: b1 :: b2 :: b3 :: b4 :: b5 :: b6 :: b7 :: rest =>
      b7 :: b6 :: b5 :: b4 :: b3 :: b2 :: b1 :: b0 :: specByteGroupReverse rest
  | l => l.reverse

end Bits

/-- Claim C1 is false of the code: for the swapped capture whose cleaned
bit string is 10000000, the code maps each 0/1 element through the
byte-value reversal table, storing [128,0,0,0,0,0,0,0], while the claimed
within-byte permutation of the bits yields [0,0,0,0,0,0,0,1]. -/
theorem claim_C1 :
    Bits.storedBitstream true [1, 0, 0, 0, 0, 0, 0, 0] =
      [128, 0, 0, 0, 0, 0, 0, 0] ∧
    Bits.specByteGroupReverse [1, 0, 0, 0, 0, 0, 0, 0] =
      [0, 0, 0, 0, 0, 0, 0, 1] ∧
    Bits.storedBitstream true [1, 0, 0, 0, 0, 0, 0, 0] ≠
      Bits.specByteGroupReverse [1, 0, 0, 0, 0, 0, 0, 0] := by
  refine ⟨by decide, by decide, ?_⟩
  intro h
  have h1 : Bits.storedBitstream true [1, 0, 0, 0, 0, 0, 0, 0] =
      [128, 0, 0, 0, 0, 0, 0, 0] := by decide
  have h2 : Bits.specByteGroupReverse [1, 0, 0, 0, 0, 0, 0, 0] =
      [0, 0, 0, 0, 0, 0, 0, 1] := by decide
  rw [h1, h2] at h
  exact absurd h (by decide)

/-! ### rs.py and rs6.py: the fixed-frame wrappers (claim C3)

rs.py line 27 calls reedsolo.init_tables, a name src/reedsolo.py does not
define (it defines init_gf), so importing rs.py with the reedsolo module of
this repository already raises AttributeError.  Even past that, rs_check at
line 43 calls reedsolo.rs_encode_msg(data[:mlen], NSYM + ELEN, fcr=FCR),
and src/reedsolo.py line 85 defines rs_encode_msg(msg, nsym) with no fcr
parameter, so the call raises TypeError, which the blanket except of
rs_check turns into False.  rs6.py is in the same state: its line 26 passes
c_exp to reedsolo6.init_tables, whose parameter is named field_exp, and its
rs_check passes fcr to reedsolo6.rs_encode_msg, which has no such
parameter.  Python exceptions are modelled with Option (none = raised). -/

namespace Rs

/-- Model of the call rs.py makes into the repository reedsolo module with
a keyword argument fcr that rs_encode_msg does not accept: the call raises
TypeError and never returns a value. -/
def rs_encode_msg_with_fcr (msg : List Nat) (nsym fcr : Nat) :
    Option (List Nat) := none

/-- Model of rs_check (rs.py, lines 30-48) with NSYM = 8, ELEN = 8: encode
the message portion with nsym 16 and compare the produced parity with the
trailing 8 bytes; any exception in the try block yields False. -/
def rs_check (data : List Nat) : Bool :=
  match rs_encode_msg_with_fcr (data.take (data.length - 8)) 16 0 with
  | some encoded =>
      decide (data.drop (data.length - 8) =
        (encoded.drop (data.length - 8)).take 8)
  | none => false

/-- Parity comparison the spec describes for the fixed-frame wrapper: the
message portion is re-encoded with the repository 8-bit codec at nsym 16
and the produced parity is compared with the trailing 8 frame bytes. -/
def specParityMatches (data : List Nat) : Bool :=
  decide (data.drop (data.length - 8) =
    ((Reedsolo.rs_encode_msg (data.take (data.length - 8)) 16).drop
      (data.length - 8)).take 8)

end Rs

namespace Rs6

/-- Model of the call rs6.py makes into the repository reedsolo6 module
with a keyword argument fcr that rs_encode_msg does not accept: the call
raises TypeError and never returns a value. -/
def rs_encode_msg_with_fcr (msg : List Nat) (nsym fcr : Nat) :
    Option (List Nat) := none

/-- Model of rs_check (rs6.py, lines 29-47) with NSYM = 10, ELEN = 0. -/
def rs_check (data : List Nat) : Bool :=
  match rs_encode_msg_with_fcr (data.take (data.length - 10)) 10 54 with
  | some encoded => decide (data.drop (data.length - 10) =
      encoded.drop (data.length - 10))
  | none => false

/-- Parity comparison the spec describes, using the repository 6-bit
codec. -/
def specParityMatches (data : List Nat) : Bool :=
  decide (data.drop (data.length - 10) =
    (Reedsolo6.rs_encode_msg (data.take (data.length - 10)) 10).drop
      (data.length - 10))

end Rs6

/-- Claim C3 is false of the code: on the all-zero 16-byte frame, whose
trailing 8 bytes are exactly the parity re-encoding produces, rs_check
still returns False, because its encode call raises (and module
initialization already fails); likewise for the rs6 wrapper on an all-zero
52-symbol frame. -/
theorem claim_C3 :
    Rs.specParityMatches (List.replicate 16 0) = true ∧
    Rs.rs_check (List.replicate 16 0) = false ∧
    Rs6.specParityMatches (List.replicate 52 0) = true ∧
    Rs6.rs_check (List.replicate 52 0) = false := by
  refine ⟨by decide, rfl, by decide, rfl⟩

/-! ### bitsparser.py: checksum_16 (claim C7) -/

namespace Bits

/-- Model of data.view(np.uint16) on the little-endian host: consecutive
byte pairs become 16-bit words low byte first.  numpy raises for an odd
byte count, which the claims exclude; a leftover byte is dropped here. -/
def toWords : List Nat → List Nat
  | a :: b :: rest => (a + 256 * b) :: toWords rest
  | _ => []

def wordSum (data : List Nat) : Nat :=
  (toWords data).foldl (fun a b => a + b) 0

/-- Model of checksum_16 (bitsparser.py, lines 56-62): np.sum accumulates
the uint16 words in a uint64 accumulator, hence the reduction modulo 2^64;
the single fold and the final complement stay within the uint64 range. -/
def checksum_16 (data : List Nat) : Nat :=
  (((wordSum data % 2 ^ 64) &&& 0xFFFF) + ((wordSum data % 2 ^ 64) >>> 16)) ^^^ 0xFFFF

theorem foldl_add_shift (l : List Nat) : ∀ a,
    l.foldl (fun x y => x + y) a = a + l.foldl (fun x y => x + y) 0 := by
  induction l with
  | nil => intro a; simp
  | cons c rest ih =>
    intro a
    simp only [List.foldl_cons]
    rw [ih (a + c), ih (0 + c)]
    omega

theorem wordSum_cons2 (a b : Nat) (rest : List Nat) :
    wordSum (a :: b :: rest) = (a + 256 * b) + wordSum rest := by
  unfold wordSum
  show (toWords (a :: b :: rest)).foldl (fun x y => x + y) 0 = _
  rw [show toWords (a :: b :: rest) = (a + 256 * b) :: toWords rest from rfl]
  rw [List.foldl_cons, foldl_add_shift]
  omega

theorem wordSum_set : ∀ (n : Nat) (data : List Nat) (k v : Nat),
    data.length = n → data.length % 2 = 0 → k < data.length →
    wordSum (data.set k v) + (data.getD k 0) * (if k % 2 = 0 then 1 else 256) =
      wordSum data + v * (if k % 2 = 0 then 1 else 256) := by
  intro n
  induction n using Nat.strong_induction_on with
  | _ n ih =>
    intro data k v hlen heven hk
    cases data with
    | nil => simp at hk
    | cons a tail =>
      cases tail with
      | nil => simp at heven
      | cons b rest =>
        cases k with
        | zero =>
          simp only [List.set_cons_zero, List.getD_cons_zero]
          rw [wordSum_cons2, wordSum_cons2]
          rw [if_pos (by decide)]
          omega
        | succ k1 =>
          cases k1 with
          | zero =>
            simp only [List.set_cons_succ, List.set_cons_zero,
              List.getD_cons_succ, List.getD_cons_zero]
            rw [wordSum_cons2, wordSum_cons2]
            rw [if_neg (by decide)]
            omega
          | succ k2 =>
            simp only [List.set_cons_succ, List.getD_cons_succ]
            rw [wordSum_cons2, wordSum_cons2]
            have hmod : (k2 + 1 + 1) % 2 = k2 % 2 := by omega
            have hrlen : rest.length = n - 2 := by
              simp only [List.length_cons] at hlen
              omega
            have hih := ih (n - 2) (by
              simp only [List.length_cons] at hlen
              omega) rest k2 v hrlen (by
                simp only [List.length_cons] at heven
                omega) (by
                simp only [List.length_cons] at hk
                omega)
            rw [show ((if (k2 + 1 + 1) % 2 = 0 then 1 else 256) : Nat) =
                (if k2 % 2 = 0 then 1 else 256) from by rw [hmod]]
            omega

theorem wordSum_le : ∀ (n : Nat) (data : List Nat), data.length = n →
    (∀ x ∈ data, x < 256) → wordSum data ≤ data.length * 32768 := by
  intro n
  induction n using Nat.strong_induction_on with
  | _ n ih =>
    intro data hlen hel
    cases data with
    | nil =>
      show wordSum [] ≤ 0 * 32768
      rfl
    | cons a tail =>
      cases tail with
      | nil =>
        show wordSum [a] ≤ 1 * 32768
        show (0:Nat) ≤ 1 * 32768
        omega
      | cons b rest =>
        rw [wordSum_cons2]
        have ha := hel a (by simp)
        have hb := hel b (by simp)
        have hrest := ih (n - 2) (by
          simp only [List.length_cons] at hlen
          omega) rest (by
            simp only [List.length_cons] at hlen
            omega) (fun x hx => hel x (by simp [hx]))
        simp only [List.length_cons]
        simp only [List.length_cons] at hlen
        omega

theorem xor_two_pow_flip : ∀ (j x : Nat),
    x ^^^ 2 ^ j = if x.testBit j = true then x - 2 ^ j else x + 2 ^ j := by
  intro j
  induction j with
  | zero =>
    intro x
    rcases Nat.even_or_odd x with he | ho
    · obtain ⟨m, hm⟩ := he
      have hx : x = 2 * m := by omega
      subst hx
      have ht : (2 * m).testBit 0 = false := by
        rw [Nat.testBit_zero]
        simp only [decide_eq_false_iff_not]
        omega
      rw [ht, if_neg (by simp)]
      rw [Nat.pow_zero, two_mul_xor_one]
    · obtain ⟨m, hm⟩ := ho
      subst hm
      have ht : (2 * m + 1).testBit 0 = true := by
        rw [Nat.testBit_zero]
        simp only [decide_eq_true_eq]
        omega
      rw [ht, if_pos rfl, Nat.pow_zero]
      have h1 : (2 * m + 1) ^^^ 1 = 2 * m := by
        rw [← two_mul_xor_one m, Nat.xor_assoc, Nat.xor_self, Nat.xor_zero]
      omega
  | succ j ih =>
    intro x
    have hsplit : 2 ^ (j + 1) = 2 * 2 ^ j := by
      rw [Nat.pow_succ]
      omega
    rcases Nat.even_or_odd x with he | ho
    · obtain ⟨m, hm⟩ := he
      have hx : x = 2 * m := by omega
      subst hx
      rw [hsplit, two_mul_xor, ih m]
      have ht : (2 * m).testBit (j + 1) = m.testBit j := by
        rw [Nat.testBit_succ]
        rw [show 2 * m / 2 = m from by omega]
      rw [ht]
      by_cases hb : m.testBit j = true
      · have hge := Nat.testBit_implies_ge hb
        rw [if_pos hb, if_pos hb]
        omega
      · rw [if_neg hb, if_neg hb]
        omega
    · obtain ⟨m, hm⟩ := ho
      subst hm
      rw [hsplit]
      have step1 : 2 * m + 1 ^^^ 2 * 2 ^ j = (2 * (m ^^^ 2 ^ j)) + 1 := by
        rw [← two_mul_xor_one m, Nat.xor_assoc, Nat.xor_comm 1 (2 * 2 ^ j),
            ← Nat.xor_assoc, two_mul_xor, two_mul_xor_one]
      rw [step1, ih m]
      have ht : (2 * m + 1).testBit (j + 1) = m.testBit j := by
        rw [Nat.testBit_succ]
        rw [show (2 * m + 1) / 2 = m from by omega]
      rw [ht]
      by_cases hb : m.testBit j = true
      · have hge := Nat.testBit_implies_ge hb
        rw [if_pos hb, if_pos hb]
        omega
      · rw [if_neg hb, if_neg hb]
        omega

theorem fold_ne (s m : Nat) (hlt : s + m < 2 ^ 64) (hm1 : 0 < m)
    (hm2 : m ≤ 32768) :
    (((s + m) &&& 0xFFFF) + ((s + m) >>> 16)) ≠ ((s &&& 0xFFFF) + (s >>> 16)) := by
  rw [show (0xFFFF : Nat) = 2 ^ 16 - 1 from by norm_num]
  rw [Nat.and_pow_two_sub_one_eq_mod, Nat.and_pow_two_sub_one_eq_mod,
      Nat.shiftRight_eq_div_pow, Nat.shiftRight_eq_div_pow]
  rw [show (2:Nat) ^ 16 = 65536 from by norm_num]
  omega

theorem xor_mask_ne (a b c : Nat) (h : a ≠ b) : a ^^^ c ≠ b ^^^ c := by
  intro hc
  apply h
  have := congrArg (fun z => z ^^^ c) hc
  simpa [Nat.xor_cancel_right] using this

end Bits

/-- Claim C7: checksum_16 is deterministic, and flipping any single bit of
an even-length byte input (of any realizable size) changes the returned
checksum.  The size bound keeps the exact word sum inside the uint64
accumulator, where it always lives for inputs numpy can hold. -/
theorem claim_C7 :
    (∀ d1 d2 : List Nat, d1 = d2 → Bits.checksum_16 d1 = Bits.checksum_16 d2) ∧
    (∀ (data : List Nat) (k j : Nat),
      (∀ x ∈ data, x < 256) → data.length % 2 = 0 → data.length ≤ 2 ^ 32 →
      k < data.length → j < 8 →
      Bits.checksum_16 (data.set k (data.getD k 0 ^^^ 2 ^ j)) ≠
        Bits.checksum_16 data) := by
  constructor
  · intro d1 d2 h
    rw [h]
  · intro data k j hbytes heven hlen32 hk hj
    set old := data.getD k 0 with hold
    have hold_lt : old < 256 := by
      rw [hold, List.getD_eq_getElem data 0 hk]
      exact hbytes _ (List.getElem_mem hk)
    have hpj_lt : 2 ^ j < 256 := by
      calc 2 ^ j ≤ 2 ^ 7 := Nat.pow_le_pow_right (by omega) (by omega)
        _ < 256 := by norm_num
    have hv_lt : old ^^^ 2 ^ j < 256 := by
      have h8 : (256:Nat) = 2 ^ 8 := by norm_num
      rw [h8] at hold_lt hpj_lt ⊢
      exact Nat.xor_lt_two_pow hold_lt hpj_lt
    have hset_len : (data.set k (old ^^^ 2 ^ j)).length = data.length :=
      List.length_set data k _
    have hset_el : ∀ x ∈ data.set k (old ^^^ 2 ^ j), x < 256 := by
      intro x hx
      rcases List.mem_or_eq_of_mem_set hx with h | h
      · exact hbytes x h
      · rw [h]
        exact hv_lt
    have hS := Bits.wordSum_le data.length data rfl hbytes
    have hS' := Bits.wordSum_le data.length (data.set k (old ^^^ 2 ^ j))
      hset_len hset_el
    rw [hset_len] at hS'
    have hbig : data.length * 32768 < 2 ^ 64 - 32768 := by
      have h1 : data.length * 32768 ≤ 2 ^ 32 * 32768 :=
        Nat.mul_le_mul_right _ hlen32
      have h2 : (2:Nat) ^ 32 * 32768 = 140737488355328 := by norm_num
      have h3 : (2:Nat) ^ 64 = 18446744073709551616 := by norm_num
      omega
    have hW := Bits.wordSum_set data.length data k (old ^^^ 2 ^ j) rfl heven hk
    rw [← hold] at hW
    set wgt : Nat := if k % 2 = 0 then 1 else 256 with hwgt
    have hwgt_pos : 0 < wgt := by
      rw [hwgt]
      split <;> omega
    have hwgt_le : wgt ≤ 256 := by
      rw [hwgt]
      split <;> omega
    have hM_pos : 0 < 2 ^ j * wgt := Nat.mul_pos (Nat.pos_pow_of_pos j (by omega)) hwgt_pos
    have hM_le : 2 ^ j * wgt ≤ 32768 := by
      have : 2 ^ j ≤ 128 := by
        calc 2 ^ j ≤ 2 ^ 7 := Nat.pow_le_pow_right (by omega) (by omega)
          _ = 128 := by norm_num
      calc 2 ^ j * wgt ≤ 128 * 256 := Nat.mul_le_mul this hwgt_le
        _ = 32768 := by norm_num
    have hflip := Bits.xor_two_pow_flip j old
    have hcs : ∀ d : List Nat, Bits.checksum_16 d =
        (((Bits.wordSum d % 2 ^ 64) &&& 0xFFFF) +
          ((Bits.wordSum d % 2 ^ 64) >>> 16)) ^^^ 0xFFFF := fun d => rfl
    rw [hcs, hcs]
    apply Bits.xor_mask_ne
    have hSmod : Bits.wordSum data % 2 ^ 64 = Bits.wordSum data :=
      Nat.mod_eq_of_lt (by omega)
    have hSmod' : Bits.wordSum (data.set k (old ^^^ 2 ^ j)) % 2 ^ 64 =
        Bits.wordSum (data.set k (old ^^^ 2 ^ j)) :=
      Nat.mod_eq_of_lt (by omega)
    rw [hSmod, hSmod']
    by_cases hb : old.testBit j = true
    · have hge := Nat.testBit_implies_ge hb
      rw [if_pos hb] at hflip
      have hveq : (old ^^^ 2 ^ j) * wgt + 2 ^ j * wgt = old * wgt := by
        rw [hflip, ← Nat.add_mul]
        congr 1
        omega
      have hSrel : Bits.wordSum data =
          Bits.wordSum (data.set k (old ^^^ 2 ^ j)) + 2 ^ j * wgt := by
        omega
      rw [hSrel]
      intro hcontra
      exact Bits.fold_ne (Bits.wordSum (data.set k (old ^^^ 2 ^ j)))
        (2 ^ j * wgt) (by omega) hM_pos hM_le hcontra.symm
    · rw [if_neg hb] at hflip
      have hveq : (old ^^^ 2 ^ j) * wgt = old * wgt + 2 ^ j * wgt := by
        rw [hflip, Nat.add_mul]
      have hSrel : Bits.wordSum (data.set k (old ^^^ 2 ^ j)) =
          Bits.wordSum data + 2 ^ j * wgt := by
        omega
      rw [hSrel]
      exact Bits.fold_ne (Bits.wordSum data) (2 ^ j * wgt) (by omega) hM_pos hM_le

theorem claim_C7_witness :
    Bits.checksum_16 ([0, 0].set 0 (([0, 0].getD 0 0) ^^^ 2 ^ 0)) ≠
      Bits.checksum_16 [0, 0] :=
  claim_C7.2 [0, 0] 0 0 (by decide) (by decide) (by norm_num) (by decide) (by decide)

end HackRF
